import Mathlib

/-!
Verification of the template-scaffolding CLI (src/index.js) against its
specification.  The JavaScript functions are shallowly embedded as Lean
functions over `List Char` / `String`; the interactive workflow is embedded
as a pure function from the command-line environment and a script of user
responses to an outcome together with a trace of filesystem effects.
-/

/-! ## Character classes (src/index.js regexes) -/

/-- The character class matched by JavaScript regex \s (whitespace), by code
point.  Used by trim(), and by the replace(\s+) step of toValidPackageName. -/
def jsWhitespace (c : Char) : Bool :=
  let n := c.toNat
  n = 0x20 || n = 0x09 || n = 0x0a || n = 0x0d || n = 0x0b || n = 0x0c ||
  n = 0xa0 || n = 0x1680 || (0x2000 ≤ n && n ≤ 0x200a) ||
  n = 0x2028 || n = 0x2029 || n = 0x202f || n = 0x205f || n = 0x3000 || n = 0xfeff

/-- Lowercase ASCII letter, the a-z part of the package-name classes. -/
def isLowerCh (c : Char) : Bool := 97 ≤ c.toNat && c.toNat ≤ 122

/-- Decimal digit, the regex class \d. -/
def isDigitCh (c : Char) : Bool := 48 ≤ c.toNat && c.toNat ≤ 57

/-- Character class of the final replace step of toValidPackageName:
the set kept by replacing every run matching the complement class with
a dash, i.e. lowercase letters, digits, dash and tilde. -/
def allowedPkgCh (c : Char) : Bool :=
  isLowerCh c || isDigitCh c || c = '-' || c = '~'

/-! ## formatTargetDir (src/index.js line 58) -/

/-- JavaScript String.prototype.trim over the code-point list: drop the
maximal whitespace run from both ends. -/
def trimChars (l : List Char) : List Char :=
  (l.dropWhile jsWhitespace).rdropWhile jsWhitespace

/-- The replace step of formatTargetDir: the anchored regex removes the
maximal trailing run of slashes. -/
def stripTrailingSlashes (l : List Char) : List Char :=
  l.rdropWhile (fun c => c = '/')

/-- Embedding of formatTargetDir: targetDir?.trim().replace(slash-run-at-end, '').
The optional chaining on an undefined argument yields undefined, modelled by
Option. -/
def formatTargetDir (t : Option String) : Option String :=
  t.map (fun s => ⟨stripTrailingSlashes (trimChars s.data)⟩)

/-! ## isValidPackageName (src/index.js line 112)

The regex is (anchored at both ends)
  (?: at-sign [a-z\d\-*~] [a-z\d\-*._~]* slash )?  [a-z\d\-~] [a-z\d\-._~]*
Since the scope classes do not contain the slash, the optional scope group,
when the string starts with an at-sign, necessarily spans exactly the
characters up to the first slash; and a string starting with an at-sign can
never match the plain alternative (at-sign is in no class).  The embedding
below is that case split. -/

/-- First character class of the package segment: [a-z\d\-~]. -/
def isPkgFirst (c : Char) : Bool := isLowerCh c || isDigitCh c || c = '-' || c = '~'

/-- Rest character class of the package segment: [a-z\d\-._~]. -/
def isPkgRest (c : Char) : Bool :=
  isLowerCh c || isDigitCh c || c = '-' || c = '.' || c = '_' || c = '~'

/-- First character class of the scope segment: [a-z\d\-*~]. -/
def isScopeFirst (c : Char) : Bool :=
  isLowerCh c || isDigitCh c || c = '-' || c = '*' || c = '~'

/-- Rest character class of the scope segment: [a-z\d\-*._~]. -/
def isScopeRest (c : Char) : Bool :=
  isLowerCh c || isDigitCh c || c = '-' || c = '*' || c = '.' || c = '_' || c = '~'

/-- The package-segment grammar [a-z\d\-~][a-z\d\-._~]* (nonempty). -/
def validPkgSeg : List Char → Bool
  | [] => false
  | c :: r => isPkgFirst c && r.all isPkgRest

/-- The scope-segment grammar [a-z\d\-*~][a-z\d\-*._~]* (nonempty). -/
def validScope : List Char → Bool
  | [] => false
  | c :: r => isScopeFirst c && r.all isScopeRest

/-- Embedding of isValidPackageName: full-string match of the regex above. -/
def isValidPackageName (projectName : String) : Bool :=
  match projectName.data with
  | [] => false
  | c :: rest =>
    if c = '@' then
      match rest.dropWhile (fun x => !(x = '/')) with
      | [] => false
      | c2 :: pkgSeg =>
        if c2 = '/' then validScope (rest.takeWhile (fun x => !(x = '/'))) && validPkgSeg pkgSeg
        else false
    else validPkgSeg (c :: rest)

/-! ## toValidPackageName (src/index.js line 116) -/

/-- JavaScript String.prototype.toLowerCase, modelled on the ASCII range
(the sanitization pipeline discards every non-ASCII character afterwards,
so only the ASCII behaviour is observable in toValidPackageName). -/
def jsToLower (c : Char) : Char :=
  if 65 ≤ c.toNat && c.toNat ≤ 90 then Char.ofNat (c.toNat + 32) else c

/-- The replace(\s+ run, dash) step: every maximal whitespace run becomes a
single dash.  The Boolean argument records whether we are inside a run
already consumed by the regex match. -/
def collapseWs : Bool → List Char → List Char
  | _, [] => []
  | inRun, c :: rest =>
    if jsWhitespace c then
      if inRun then collapseWs true rest else '-' :: collapseWs true rest
    else c :: collapseWs false rest

/-- The replace(leading dot-or-underscore, empty) step: strips at most one
leading dot or underscore (the regex is anchored and not global). -/
def stripLeadDotUnd : List Char → List Char
  | [] => []
  | c :: rest => if c = '.' || c = '_' then rest else c :: rest

/-- The final replace step: every maximal run outside [a-z\d\-~] becomes a
single dash. -/
def collapseBad : Bool → List Char → List Char
  | _, [] => []
  | inRun, c :: rest =>
    if allowedPkgCh c then c :: collapseBad false rest
    else if inRun then collapseBad true rest else '-' :: collapseBad true rest

/-- Embedding of toValidPackageName: trim, lowercase, collapse whitespace
runs to dashes, strip one leading dot or underscore, collapse runs of
disallowed characters to dashes. -/
def toValidPackageName (projectName : String) : String :=
  ⟨collapseBad false (stripLeadDotUnd (collapseWs false ((trimChars projectName.data).map jsToLower)))⟩

/-! ## isEmpty (src/index.js line 82) -/

/-- Embedding of isEmpty, over the entry list returned by readdirSync:
zero entries, or a single entry equal to the literal .git name. -/
def isEmpty (files : List String) : Bool :=
  files.length = 0 || (files.length = 1 && files.getD 0 "" = ".git")

/-! ## Helper lemmas on dropWhile and rdropWhile -/

theorem dropWhile_head_false (p : Char → Bool) :
    ∀ (l : List Char) (c : Char), (l.dropWhile p).head? = some c → p c = false := by
  intro l
  induction l with
  | nil => intro c h; simp [List.dropWhile] at h
  | cons a t ih =>
    intro c h
    by_cases hp : p a = true
    · rw [List.dropWhile_cons_of_pos hp] at h
      exact ih c h
    · rw [List.dropWhile_cons_of_neg hp] at h
      simp at h
      rw [← h]
      exact Bool.not_eq_true _ |>.mp hp

theorem dropWhile_eq_self_of_head (p : Char → Bool) (l : List Char)
    (h : ∀ c, l.head? = some c → p c = false) : l.dropWhile p = l := by
  cases l with
  | nil => rfl
  | cons a t =>
    have := h a (by rfl)
    rw [List.dropWhile_cons_of_neg (by simp [this])]

theorem head?_append_of_ne_nil (l m : List Char) (h : l ≠ []) :
    (l ++ m).head? = l.head? := by
  cases l with
  | nil => exact absurd rfl h
  | cons a t => rfl

theorem head?_rdropWhile (p : Char → Bool) (l : List Char)
    (h : l.rdropWhile p ≠ []) : (l.rdropWhile p).head? = l.head? := by
  induction l using List.reverseRecOn with
  | nil => simp [List.rdropWhile_nil] at h
  | append_singleton t x ih =>
    rw [List.rdropWhile_concat] at h ⊢
    by_cases hp : p x = true
    · rw [if_pos hp] at h ⊢
      have ht : t ≠ [] := by
        intro he
        subst he
        simp [List.rdropWhile_nil] at h
      rw [ih h, head?_append_of_ne_nil t [x] ht]
    · rw [if_neg hp]

/-! ## Claim C6: formatTargetDir -/

theorem stripTrim_head_ws_false (l : List Char) (c : Char)
    (h : (stripTrailingSlashes (trimChars l)).head? = some c) : jsWhitespace c = false := by
  have hne : stripTrailingSlashes (trimChars l) ≠ [] := by
    intro he; rw [he] at h; exact Option.noConfusion h
  have h1 : (trimChars l).head? = some c := by
    have e := head?_rdropWhile (fun x => x = '/') (trimChars l) hne
    rw [← e]; exact h
  have hTne : trimChars l ≠ [] := by
    intro he; rw [he] at h1; exact Option.noConfusion h1
  have h2 : (l.dropWhile jsWhitespace).head? = some c := by
    have e := head?_rdropWhile jsWhitespace (l.dropWhile jsWhitespace) hTne
    rw [← e]; exact h1
  exact dropWhile_head_false jsWhitespace l c h2

theorem formatCore_idem (l : List Char)
    (h : ∀ hr : stripTrailingSlashes (trimChars l) ≠ [],
      jsWhitespace ((stripTrailingSlashes (trimChars l)).getLast hr) = false) :
    stripTrailingSlashes (trimChars (stripTrailingSlashes (trimChars l))) =
      stripTrailingSlashes (trimChars l) := by
  have h1 : (stripTrailingSlashes (trimChars l)).dropWhile jsWhitespace =
      stripTrailingSlashes (trimChars l) :=
    dropWhile_eq_self_of_head jsWhitespace _ (fun c hc => stripTrim_head_ws_false l c hc)
  have h2 : trimChars (stripTrailingSlashes (trimChars l)) = stripTrailingSlashes (trimChars l) := by
    show ((stripTrailingSlashes (trimChars l)).dropWhile jsWhitespace).rdropWhile jsWhitespace =
      stripTrailingSlashes (trimChars l)
    rw [h1]
    exact List.rdropWhile_eq_self_iff.mpr (fun hl => by simp [h hl])
  have h3 : stripTrailingSlashes (stripTrailingSlashes (trimChars l)) =
      stripTrailingSlashes (trimChars l) := by
    show (stripTrailingSlashes (trimChars l)).rdropWhile (fun c => c = '/') =
      stripTrailingSlashes (trimChars l)
    exact List.rdropWhile_eq_self_iff.mpr
      (fun hl => List.rdropWhile_last_not (fun c => c = '/') (trimChars l) hl)
  rw [h2, h3]

/-- Claim C6 (counterexample): formatTargetDir is not idempotent.  On the
input made of a letter, a space and a slash, stripping the trailing slash
run exposes a trailing space, which a second application then trims away. -/
theorem formatTargetDir_not_idem :
    formatTargetDir (formatTargetDir (some "a /")) ≠ formatTargetDir (some "a /") := by
  decide

/-- Claim C6 (amended): formatTargetDir trims surrounding whitespace, strips
all trailing slash runs, returns the empty string and undefined unchanged,
and is idempotent on every input whose image has no trailing whitespace
character. -/
theorem formatTargetDir_spec :
    formatTargetDir none = none ∧
    formatTargetDir (some "") = some "" ∧
    formatTargetDir (some "foo///") = some "foo" ∧
    formatTargetDir (some "  foo  ") = some "foo" ∧
    (∀ s t : String, formatTargetDir (some s) = some t →
      (∀ h : t.data ≠ [], jsWhitespace (t.data.getLast h) = false) →
      formatTargetDir (some t) = some t) := by
  refine ⟨rfl, by decide, by decide, by decide, ?_⟩
  intro s t hst hws
  have ht : t = ⟨stripTrailingSlashes (trimChars s.data)⟩ := by
    simpa [formatTargetDir] using hst.symm
  have hdata : t.data = stripTrailingSlashes (trimChars s.data) := by
    rw [ht]
  have hcore := formatCore_idem s.data (by rw [← hdata]; exact hws)
  show some _ = some t
  congr 1
  apply String.ext
  show (stripTrailingSlashes (trimChars t.data)) = t.data
  rw [hdata, hcore]

/-- Claim C6 witness: the idempotence conjunct applied to the concrete input
of the specification example. -/
theorem formatTargetDir_spec_witness : formatTargetDir (some "foo") = some "foo" :=
  formatTargetDir_spec.2.2.2.2 "foo///" "foo" (by decide)
    (fun _ => (by decide : jsWhitespace 'o' = false))

/-! ## Claim C4: isValidPackageName examples -/

/-- Claim C4 (counterexample): the claim states that the leading-dash name is
rejected, but the first character class of the package segment contains the
dash, so the regex accepts it. -/
theorem isValidPackageName_leading_dash_true :
    isValidPackageName "-leading-dash" = true := by decide

/-- Claim C4 (amended): the scoped name and the mixed-case spaced name behave
as claimed; the leading-dash name is accepted, not rejected, because the dash
is in the first character class of the package segment. -/
theorem isValidPackageName_examples :
    isValidPackageName "@scope/pkg-name" = true ∧
    isValidPackageName "My Project" = false ∧
    isValidPackageName "-leading-dash" = true := by decide

/-! ## Claim C9: asterisk placement in isValidPackageName -/

/-- Claim C9: the scope segment accepts an asterisk anywhere, including as
its first character, while the package-segment grammar (used for the whole
unscoped name and for the part after the slash) never accepts one. -/
theorem star_in_scope_only :
    isValidPackageName "@*/pkg" = true ∧
    isValidPackageName "@a*b/c" = true ∧
    (∀ l : List Char, '*' ∈ l → validPkgSeg l = false) ∧
    (∀ s : String, s.data.head? ≠ some '@' → '*' ∈ s.data → isValidPackageName s = false) := by
  have hseg : ∀ l : List Char, '*' ∈ l → validPkgSeg l = false := by
    intro l hl
    cases l with
    | nil => simp at hl
    | cons c r =>
      show (isPkgFirst c && r.all isPkgRest) = false
      rcases List.mem_cons.mp hl with hc | hr
      · rw [← hc]
        have hstar : isPkgFirst '*' = false := by decide
        rw [hstar, Bool.false_and]
      · have : r.all isPkgRest = false := by
          rw [← Bool.not_eq_true, List.all_eq_true]
          intro hall
          have := hall '*' hr
          simp [isPkgRest, isLowerCh, isDigitCh] at this
        rw [this, Bool.and_false]
  refine ⟨by decide, by decide, hseg, ?_⟩
  intro s hhead hmem
  match hs : s.data with
  | [] => rw [hs] at hmem; simp at hmem
  | c :: rest =>
    have hc : ¬ c = '@' := by
      intro he; rw [hs, he] at hhead; exact hhead rfl
    show isValidPackageName s = false
    rw [isValidPackageName, hs]
    simp only [if_neg hc]
    exact hseg (c :: rest) (hs ▸ hmem)

/-- Claim C9 witness: the package-segment part applied at a concrete
unscoped name containing an asterisk. -/
theorem star_in_scope_only_witness : isValidPackageName "x*" = false :=
  star_in_scope_only.2.2.2 "x*" (by decide) (by decide)

/-! ## Claim C10: sanitization can miss validity -/

/-- Claim C10: toValidPackageName maps a bare dot, a bare underscore and a
whitespace-only string to the empty string, which isValidPackageName
rejects. -/
theorem toValidPackageName_gap :
    toValidPackageName "." = "" ∧
    toValidPackageName "_" = "" ∧
    toValidPackageName "   " = "" ∧
    isValidPackageName "" = false := by decide

/-! ## Claim C7: isEmpty -/

/-- Claim C7: over the entry list of an existing directory, isEmpty is true
exactly for the empty listing and for the singleton .git listing; it is true
for a directory holding only the version-control subdirectory and false as
soon as any other entry is additionally present. -/
theorem isEmpty_spec :
    (∀ files : List String, isEmpty files = true ↔ files = [] ∨ files = [".git"]) ∧
    isEmpty [".git"] = true ∧
    (∀ files : List String, ".git" ∈ files → files ≠ [".git"] → isEmpty files = false) := by
  have hiff : ∀ files : List String, isEmpty files = true ↔ files = [] ∨ files = [".git"] := by
    intro files
    match files with
    | [] => simp [isEmpty]
    | [f] =>
      simp only [isEmpty, List.length_cons, List.length_nil]
      constructor
      · intro h
        right
        simp at h
        rw [h]
      · intro h
        rcases h with h | h
        · exact absurd h (by simp)
        · simp at h
          simp [h]
    | a :: b :: t =>
      simp [isEmpty]
  refine ⟨hiff, by decide, ?_⟩
  intro files hmem hne
  rw [← Bool.not_eq_true]
  intro htrue
  rcases (hiff files).mp htrue with h | h
  · rw [h] at hmem; simp at hmem
  · exact hne h

/-- Claim C7 witness: the negative part applied at a listing holding the
version-control subdirectory plus one extra entry. -/
theorem isEmpty_spec_witness : isEmpty [".git", "x"] = false :=
  isEmpty_spec.2.2 [".git", "x"] (by decide) (by decide)

/-! ## Claim C5: toValidPackageName is idempotent -/

theorem allowed_cases (c : Char) (h : allowedPkgCh c = true) :
    (97 ≤ c.toNat ∧ c.toNat ≤ 122) ∨ (48 ≤ c.toNat ∧ c.toNat ≤ 57) ∨ c = '-' ∨ c = '~' := by
  simp only [allowedPkgCh, isLowerCh, isDigitCh, Bool.or_eq_true, decide_eq_true_eq,
    Bool.and_eq_true] at h
  tauto

theorem jsWhitespace_of_allowed (c : Char) (h : allowedPkgCh c = true) :
    jsWhitespace c = false := by
  rcases allowed_cases c h with h1 | h1 | h1 | h1
  · simp only [jsWhitespace, Bool.or_eq_false_iff, decide_eq_false_iff_not, Bool.and_eq_false_iff]
    omega
  · simp only [jsWhitespace, Bool.or_eq_false_iff, decide_eq_false_iff_not, Bool.and_eq_false_iff]
    omega
  · rw [h1]; decide
  · rw [h1]; decide

theorem jsToLower_of_allowed (c : Char) (h : allowedPkgCh c = true) :
    jsToLower c = c := by
  have hcond : (65 ≤ c.toNat && c.toNat ≤ 90) = false := by
    rcases allowed_cases c h with h1 | h1 | h1 | h1
    · simp only [Bool.and_eq_false_iff, decide_eq_false_iff_not]; omega
    · simp only [Bool.and_eq_false_iff, decide_eq_false_iff_not]; omega
    · rw [h1]; decide
    · rw [h1]; decide
  rw [jsToLower, hcond]
  rfl

theorem collapseBad_mem_allowed :
    ∀ (l : List Char) (b : Bool) (c : Char), c ∈ collapseBad b l → allowedPkgCh c = true := by
  intro l
  induction l with
  | nil => intro b c hc; simp [collapseBad] at hc
  | cons a t ih =>
    intro b c hc
    by_cases ha : allowedPkgCh a = true
    · rw [collapseBad, if_pos ha] at hc
      rcases List.mem_cons.mp hc with h | h
      · rw [h]; exact ha
      · exact ih false c h
    · rw [collapseBad, if_neg ha] at hc
      cases b with
      | true => exact ih true c hc
      | false =>
        simp only [Bool.false_eq_true, if_false] at hc
        rcases List.mem_cons.mp hc with h | h
        · rw [h]; decide
        · exact ih true c h

theorem collapseWs_eq_self (l : List Char) (h : ∀ c ∈ l, jsWhitespace c = false) :
    ∀ b, collapseWs b l = l := by
  induction l with
  | nil => intro b; rfl
  | cons a t ih =>
    intro b
    have ha := h a (List.mem_cons_self a t)
    rw [collapseWs, if_neg (by simp [ha])]
    rw [ih (fun c hc => h c (List.mem_cons_of_mem a hc)) false]

theorem collapseBad_eq_self (l : List Char) (h : ∀ c ∈ l, allowedPkgCh c = true) :
    ∀ b, collapseBad b l = l := by
  induction l with
  | nil => intro b; rfl
  | cons a t ih =>
    intro b
    rw [collapseBad, if_pos (h a (List.mem_cons_self a t))]
    rw [ih (fun c hc => h c (List.mem_cons_of_mem a hc)) false]

theorem map_jsToLower_eq_self (l : List Char) (h : ∀ c ∈ l, allowedPkgCh c = true) :
    l.map jsToLower = l := by
  induction l with
  | nil => rfl
  | cons a t ih =>
    rw [List.map_cons, jsToLower_of_allowed a (h a (List.mem_cons_self a t)),
      ih (fun c hc => h c (List.mem_cons_of_mem a hc))]

theorem trimChars_eq_self (l : List Char) (h : ∀ c ∈ l, jsWhitespace c = false) :
    trimChars l = l := by
  have h1 : l.dropWhile jsWhitespace = l := by
    apply dropWhile_eq_self_of_head
    intro c hc
    exact h c (by cases l with
      | nil => exact Option.noConfusion hc
      | cons a t => rw [List.head?_cons] at hc; rw [← Option.some.inj hc]; exact List.mem_cons_self a t)
  show (l.dropWhile jsWhitespace).rdropWhile jsWhitespace = l
  rw [h1]
  exact List.rdropWhile_eq_self_iff.mpr (fun hl => by simp [h (l.getLast hl) (List.getLast_mem hl)])

theorem stripLeadDotUnd_eq_self (l : List Char) (h : ∀ c ∈ l, allowedPkgCh c = true) :
    stripLeadDotUnd l = l := by
  cases l with
  | nil => rfl
  | cons a t =>
    have ha := h a (List.mem_cons_self a t)
    have hdot : ¬ (a = '.' ∨ a = '_') := by
      intro hc
      rcases hc with hc | hc <;> rw [hc] at ha <;> exact absurd ha (by decide)
    rw [stripLeadDotUnd, if_neg (by simpa using hdot)]

/-- Claim C5: toValidPackageName is idempotent.  The sanitized output only
contains characters of the allowed class (lowercase letters, digits, dash,
tilde), and every stage of the pipeline fixes such strings. -/
theorem toValidPackageName_idem (s : String) :
    toValidPackageName (toValidPackageName s) = toValidPackageName s := by
  have hall : ∀ c ∈ (toValidPackageName s).data, allowedPkgCh c = true := by
    intro c hc
    exact collapseBad_mem_allowed _ false c hc
  have hws : ∀ c ∈ (toValidPackageName s).data, jsWhitespace c = false :=
    fun c hc => jsWhitespace_of_allowed c (hall c hc)
  show (⟨collapseBad false (stripLeadDotUnd (collapseWs false
    ((trimChars (toValidPackageName s).data).map jsToLower)))⟩ : String) = toValidPackageName s
  rw [trimChars_eq_self _ hws, map_jsToLower_eq_self _ hall, collapseWs_eq_self _ hws,
    stripLeadDotUnd_eq_self _ hall, collapseBad_eq_self _ hall]

/-! ## Claim C8: emptyDir (src/index.js line 87)

The filesystem under the target directory is modelled as a finite tree; the
directory itself is an optional listing (none when existsSync is false).
rmSync with the recursive and force options removes a whole entry, file or
non-empty directory alike, without error; it is modelled by dropping the
named entry together with its subtree. -/

inductive FsNode where
  | file (content : String)
  | dir (entries : List (String × FsNode))

/-- One rmSync call on a named entry of the listing: removes the entry and
its whole subtree, no error if absent (the force option). -/
def rmEntry (entries : List (String × FsNode)) (name : String) : List (String × FsNode) :=
  entries.filter (fun e => !(e.1 = name))

/-- The loop of emptyDir: iterate over the names readdirSync returned,
skip the version-control subdirectory, remove every other entry. -/
def emptyDirLoop (names : List String) (entries : List (String × FsNode)) :
    List (String × FsNode) :=
  names.foldl (fun acc n => if n = ".git" then acc else rmEntry acc n) entries

/-- Embedding of emptyDir: early return when the path does not exist,
otherwise run the removal loop over the directory's own entry names. -/
def emptyDir (d : Option (List (String × FsNode))) : Option (List (String × FsNode)) :=
  match d with
  | none => none
  | some entries => some (emptyDirLoop (entries.map Prod.fst) entries)

theorem emptyDirLoop_filter (ns : List String) :
    ∀ es : List (String × FsNode),
      emptyDirLoop ns es = es.filter (fun e => e.1 = ".git" || !(ns.contains e.1)) := by
  induction ns with
  | nil =>
    intro es
    show es = _
    exact (List.filter_eq_self.mpr (fun a _ => by simp)).symm
  | cons n ns ih =>
    intro es
    by_cases hn : n = ".git"
    · show emptyDirLoop ns (if n = ".git" then es else rmEntry es n) = _
      rw [if_pos hn, ih es]
      apply List.filter_congr
      intro e _
      by_cases hg : e.1 = ".git"
      · simp [hg, hn]
      · simp only [List.contains_cons]
        have : (e.1 == n) = false := by
          simp only [beq_eq_false_iff_ne, ne_eq]
          intro he; rw [hn] at he; exact hg he
        rw [this, Bool.false_or]
    · show emptyDirLoop ns (if n = ".git" then es else rmEntry es n) = _
      rw [if_neg hn, ih (rmEntry es n), rmEntry, List.filter_filter]
      apply List.filter_congr
      intro e _
      by_cases hx : e.1 = n
      · have hg : e.1 ≠ ".git" := by rw [hx]; exact hn
        simp [hx, hg, hn]
      · simp only [List.contains_cons]
        have : (e.1 == n) = false := by simp [hx]
        simp [hx, this]

/-- Claim C8: emptyDir is a no-op on a nonexistent path; on an existing
directory it removes exactly the entries not named .git, each with its whole
subtree, and keeps the .git entry (with its subtree) unchanged. -/
theorem emptyDir_spec :
    emptyDir none = none ∧
    (∀ entries : List (String × FsNode),
      emptyDir (some entries) = some (entries.filter (fun e => e.1 = ".git"))) ∧
    (∀ (entries es2 : List (String × FsNode)), emptyDir (some entries) = some es2 →
      ∀ e, e ∈ es2 ↔ e ∈ entries ∧ e.1 = ".git") := by
  have h2 : ∀ entries : List (String × FsNode),
      emptyDir (some entries) = some (entries.filter (fun e => e.1 = ".git")) := by
    intro entries
    show some (emptyDirLoop (entries.map Prod.fst) entries) = _
    rw [emptyDirLoop_filter]
    congr 1
    apply List.filter_congr
    intro e he
    have hmem : e.1 ∈ entries.map Prod.fst := List.mem_map_of_mem Prod.fst he
    have : (entries.map Prod.fst).contains e.1 = true := List.elem_eq_true_of_mem hmem
    rw [this]
    simp
  refine ⟨rfl, h2, ?_⟩
  intro entries es2 hes e
  rw [h2 entries] at hes
  have : es2 = entries.filter (fun e => e.1 = ".git") := (Option.some.inj hes).symm
  rw [this, List.mem_filter]
  simp

/-- Claim C8 witness: the membership characterization applied to a concrete
directory holding the version-control subdirectory and one source file. -/
theorem emptyDir_spec_witness :
    (".git", FsNode.dir []) ∈ [(".git", FsNode.dir [])] ↔
      (".git", FsNode.dir []) ∈ [(".git", FsNode.dir []), ("src", FsNode.file "x")] ∧
      (".git", FsNode.dir []).1 = ".git" :=
  emptyDir_spec.2.2 [(".git", FsNode.dir []), ("src", FsNode.file "x")]
    [(".git", FsNode.dir [])] rfl (".git", FsNode.dir [])

/-! ## The template catalog and the init workflow (src/index.js lines 13-270)

The interactive prompts library is the external collaborator: each question
is a suspension point that either yields a typed answer or raises the abort
signal (which fires the onCancel handler).  The workflow is embedded as a
pure function of the command-line environment and a script of user
responses; filesystem mutations are recorded as an effect trace instead of
being performed. -/

/-- Display colors of the terminal-color library, as pure tags. -/
inductive KColor where
  | cyan | green | magenta | red
deriving DecidableEq

structure Variant where
  name : String
  display : String
  color : KColor
deriving DecidableEq

structure Layout where
  name : String
  display : String
  color : KColor
  variants : List Variant
deriving DecidableEq

/-- The static catalog LAYOUTS. -/
def LAYOUTS : List Layout := [
  { name := "pug", display := "Pug", color := .red,
    variants := [
      { name := "pug-scss", display := "Pug scss", color := .magenta },
      { name := "pug-css", display := "Pug CSS", color := .cyan } ] },
  { name := "html", display := "HTML", color := .green,
    variants := [
      { name := "html-scss", display := "HTML Scss", color := .magenta },
      { name := "html-css", display := "HTML CSS", color := .cyan } ] } ]

/-- TEMPLATES: the per-layout variant-name lists concatenated by the
seedless reduce. -/
def TEMPLATES : List String :=
  match LAYOUTS.map (fun f => f.variants.map (fun v => v.name)) with
  | [] => []
  | x :: xs => xs.foldl (fun a b => a ++ b) x

def DEFAULT_TARGET_DIR : String := "loom-project"

/-- The renameFiles table: the dotfile-escaping convention for the ignore
file, identity elsewhere. -/
def renameTo (file : String) : String :=
  if file = "_gitignore" then ".gitignore" else file

/-- JavaScript truthiness of an optional string: undefined and the empty
string are falsy. -/
def strTruthy : Option String → Bool
  | none => false
  | some s => !(s = "")

/-- JavaScript a || b over optional strings. -/
def jsOrStr (a b : Option String) : Option String :=
  if strTruthy a then a else b

/-- Line 221: template = variant || framework?.name || argTemplate. -/
def resolveTemplate (variant frameworkName argTemplate : Option String) : Option String :=
  jsOrStr (jsOrStr variant frameworkName) argTemplate

/-- A user's response to one presented prompt: a typed answer, or the abort
signal that fires the onCancel handler. -/
inductive Resp (α : Type) where
  | answer (a : α)
  | abort
deriving DecidableEq

/-- Script of user responses, one per potential question.  A response is
consumed only when its question is actually presented.  The two select
questions answer with an index into the presented choice list; both catalog
layouts carry exactly two variants. -/
structure UserScript where
  projectName : Resp String
  overwrite : Resp Bool
  packageName : Resp String
  framework : Resp (Fin 2)
  variant : Resp (Fin 2)

/-- Static environment of one invocation: command-line arguments, the
basename of the resolved working directory, the directory listings that
existsSync and readdirSync observe (none models a nonexistent path), the
template directory listing, and the working directory path. -/
structure Env where
  argTargetDirRaw : Option String
  argTemplate : Option String
  cwdBasename : String
  fs : String → Option (List String)
  templateFiles : List String
  cwd : String

/-- The message of the cancellation error thrown both by the overwrite gate
and by the onCancel handler (modulo the terminal color escape wrapped
around the cross mark). -/
def cancelMsg : String := "✖ Operation cancelled!"

/-- One prompt step: a question whose computed type is null is skipped and
resolves to no answer; a presented question resolves to its scripted answer,
or raises the cancellation error when the user aborts. -/
def ask {α : Type} (asked : Bool) (r : Resp α) : Except String (Option α) :=
  if asked then
    match r with
    | .answer a => .ok (some a)
    | .abort => .error cancelMsg
  else .ok none

/-- Line 126: argTargetDir = formatTargetDir(argv dot underscore index 0). -/
def argTargetDirOf (env : Env) : Option String := formatTargetDir env.argTargetDirRaw

/-- Question 1 (project name) and the working targetDir it leaves behind:
skipped when a command-line target directory was given (targetDir then stays
argTargetDir || DEFAULT_TARGET_DIR); otherwise the submitted text drives
targetDir through the onState hook, formatTargetDir(value) || default. -/
def q1TargetDir (env : Env) (u : UserScript) : Except String String :=
  if strTruthy (argTargetDirOf env) then
    .ok ((argTargetDirOf env).getD "")
  else
    match u.projectName with
    | .abort => .error cancelMsg
    | .answer s =>
      .ok ((jsOrStr (formatTargetDir (some s)) (some DEFAULT_TARGET_DIR)).getD DEFAULT_TARGET_DIR)

/-- Question 2 guard: the overwrite confirmation is presented only when the
working target directory exists and is not empty. -/
def overwriteAsked (env : Env) (td : String) : Bool :=
  match env.fs td with
  | none => false
  | some files => !(isEmpty files)

/-- getProjectName: the directory-derived name; the basename of the resolved
working directory when targetDir is the dot. -/
def getProjectName (env : Env) (td : String) : String :=
  if td = "." then env.cwdBasename else td

/-- Selection of a catalog layout by choice index. -/
def layoutAt (i : Fin 2) : Layout :=
  (LAYOUTS.get? i.val).getD { name := "", display := "", color := .red, variants := [] }

/-- The value a variant select resolves to: the name of the chosen entry of
the chosen layout's variant list. -/
def variantValueOf (fw : Option Layout) (va : Option (Fin 2)) : Option String :=
  match fw, va with
  | some f, some j => (f.variants.get? j.val).map (fun v => v.name)
  | _, _ => none

/-- The result record destructured after the prompts call, together with the
final working targetDir. -/
structure Answers where
  overwrite : Option Bool
  packageName : Option String
  framework : Option Layout
  variant : Option String
  targetDir : String
deriving DecidableEq

/-- Question 6 (variant select): presented whenever a framework was chosen,
because every catalog layout carries a variants array and any array is
truthy; resolves to the chosen variant's name. -/
def q6Step (env : Env) (u : UserScript) (td : String) (ow : Option Bool)
    (pn : Option String) (fw : Option (Fin 2)) : Except String Answers :=
  match ask (fw.map layoutAt).isSome u.variant with
  | .error m => .error m
  | .ok va =>
    .ok { overwrite := ow, packageName := pn, framework := fw.map layoutAt,
          variant := variantValueOf (fw.map layoutAt) va, targetDir := td }

/-- Question 5 (framework select): skipped when the command-line template
argument is truthy and names a known template. -/
def q5Step (env : Env) (u : UserScript) (td : String) (ow : Option Bool)
    (pn : Option String) : Except String Answers :=
  match ask (!(strTruthy env.argTemplate &&
      TEMPLATES.contains (env.argTemplate.getD ""))) u.framework with
  | .error m => .error m
  | .ok fw => q6Step env u td ow pn fw

/-- Questions 3 and 4: the cancellation gate (overwriteChecker) that throws
when the overwrite answer was the explicit no, then the package-name
question, skipped when the directory-derived name is already valid. -/
def afterOverwrite (env : Env) (u : UserScript) (td : String) (ow : Option Bool) :
    Except String Answers :=
  if ow = some false then .error cancelMsg
  else
    match ask (!(isValidPackageName (getProjectName env td))) u.packageName with
    | .error m => .error m
    | .ok pn => q5Step env u td ow pn

/-- The prompts call of init (lines 134-203): six questions in order, each
conditionally presented, raising the cancellation error at the first abort
of a presented question or at the cancellation gate. -/
def runPrompts (env : Env) (u : UserScript) : Except String Answers :=
  match q1TargetDir env u with
  | .error m => .error m
  | .ok td =>
    match ask (overwriteAsked env td) u.overwrite with
    | .error m => .error m
    | .ok ow => afterOverwrite env u td ow

/-- Filesystem effects of the materialization phase. -/
inductive Effect where
  | emptyDirFx (path : String)
  | mkdirFx (path : String)
  | copyFx (src dst : String)
  | writeFileFx (path : String)
deriving DecidableEq

/-- Outcome of one init run: the caught cancellation (only the message is
printed) or completion with the destructured answers and the resolved
template. -/
inductive Outcome where
  | cancelled (message : String)
  | completed (a : Answers) (template : Option String)
deriving DecidableEq

/-- Concatenation model of path.join and path.resolve for the effect trace;
the claims under verification never depend on path normalization, only on
which operations appear in the trace. -/
def pathJoin (a b : String) : String := a ++ "/" ++ b

/-- The source template directory: the fixed-convention sibling path; a
missing template resolves to the literal text undefined, as the JavaScript
template literal stringifies it. -/
def templateDirOf (template : Option String) : String :=
  pathJoin "packages" ("template-" ++ template.getD "undefined")

/-- Embedding of init (lines 125-270): run the prompts, catch a cancellation
(printing only its message, touching nothing), otherwise emit the
materialization effect trace: empty or create the root, copy every template
entry except the manifest under the rename table, then write the rewritten
manifest. -/
def runInit (env : Env) (u : UserScript) : Outcome × List Effect :=
  match runPrompts env u with
  | .error m => (.cancelled m, [])
  | .ok a =>
    let root := pathJoin env.cwd a.targetDir
    let dirFx : List Effect :=
      if a.overwrite = some true then [.emptyDirFx root]
      else if (env.fs root).isNone then [.mkdirFx root]
      else []
    let template := resolveTemplate a.variant (a.framework.map (fun f => f.name)) env.argTemplate
    let tdir := templateDirOf template
    let copyFxs := (env.templateFiles.filter (fun f => !(f = "package.json"))).map
      (fun f => Effect.copyFx (pathJoin tdir f) (pathJoin root (renameTo f)))
    (.completed a template, dirFx ++ copyFxs ++ [.writeFileFx (pathJoin root (renameTo "package.json"))])

/-! ## Claim C1: cancellation is caught cleanly and touches nothing -/

theorem ask_error_msg {α : Type} (asked : Bool) (r : Resp α) (m : String)
    (h : ask asked r = .error m) : m = cancelMsg := by
  cases asked <;> cases r <;> simp [ask] at h <;> try exact h.symm

theorem q1_error_msg (env : Env) (u : UserScript) (m : String)
    (h : q1TargetDir env u = .error m) : m = cancelMsg := by
  unfold q1TargetDir at h
  by_cases ht : strTruthy (argTargetDirOf env) = true
  · rw [if_pos ht] at h
    exact Except.noConfusion h
  · rw [if_neg ht] at h
    cases hr : u.projectName with
    | abort =>
      rw [hr] at h
      exact (Except.error.inj h).symm
    | answer s =>
      rw [hr] at h
      exact Except.noConfusion h

theorem q6Step_error_msg (env : Env) (u : UserScript) (td : String) (ow : Option Bool)
    (pn : Option String) (fw : Option (Fin 2)) (m : String)
    (h : q6Step env u td ow pn fw = .error m) : m = cancelMsg := by
  unfold q6Step at h
  cases h6 : ask (fw.map layoutAt).isSome u.variant with
  | error m6 =>
    rw [h6] at h
    have h' : (Except.error m6 : Except String Answers) = .error m := h
    rw [← Except.error.inj h']
    exact ask_error_msg _ _ _ h6
  | ok va =>
    rw [h6] at h
    exact Except.noConfusion (show (Except.ok _ : Except String Answers) = .error m from h)

theorem q5Step_error_msg (env : Env) (u : UserScript) (td : String) (ow : Option Bool)
    (pn : Option String) (m : String)
    (h : q5Step env u td ow pn = .error m) : m = cancelMsg := by
  unfold q5Step at h
  cases h5 : ask (!(strTruthy env.argTemplate &&
      TEMPLATES.contains (env.argTemplate.getD ""))) u.framework with
  | error m5 =>
    rw [h5] at h
    have h' : (Except.error m5 : Except String Answers) = .error m := h
    rw [← Except.error.inj h']
    exact ask_error_msg _ _ _ h5
  | ok fw =>
    rw [h5] at h
    exact q6Step_error_msg env u td ow pn fw m h

theorem afterOverwrite_error_msg (env : Env) (u : UserScript) (td : String)
    (ow : Option Bool) (m : String)
    (h : afterOverwrite env u td ow = .error m) : m = cancelMsg := by
  unfold afterOverwrite at h
  by_cases hg : ow = some false
  · rw [if_pos hg] at h
    exact (Except.error.inj h).symm
  · rw [if_neg hg] at h
    cases h4 : ask (!(isValidPackageName (getProjectName env td))) u.packageName with
    | error m4 =>
      rw [h4] at h
      have h' : (Except.error m4 : Except String Answers) = .error m := h
      rw [← Except.error.inj h']
      exact ask_error_msg _ _ _ h4
    | ok pn =>
      rw [h4] at h
      exact q5Step_error_msg env u td ow pn m h

theorem runPrompts_error_msg (env : Env) (u : UserScript) (m : String)
    (h : runPrompts env u = .error m) : m = cancelMsg := by
  unfold runPrompts at h
  cases h1 : q1TargetDir env u with
  | error m1 =>
    rw [h1] at h
    have h' : (Except.error m1 : Except String Answers) = .error m := h
    rw [← Except.error.inj h']
    exact q1_error_msg env u m1 h1
  | ok td =>
    rw [h1] at h
    have h2all : (match ask (overwriteAsked env td) u.overwrite with
      | Except.error m => (Except.error m : Except String Answers)
      | Except.ok ow => afterOverwrite env u td ow) = .error m := h
    cases h2 : ask (overwriteAsked env td) u.overwrite with
    | error m2 =>
      rw [h2] at h2all
      have h' : (Except.error m2 : Except String Answers) = .error m := h2all
      rw [← Except.error.inj h']
      exact ask_error_msg _ _ _ h2
    | ok ow =>
      rw [h2] at h2all
      exact afterOverwrite_error_msg env u td ow m h2all

theorem q6Step_ok_inv (env : Env) (u : UserScript) (td : String) (ow : Option Bool)
    (pn : Option String) (fw : Option (Fin 2)) (a : Answers)
    (h : q6Step env u td ow pn fw = .ok a) :
    ∃ va : Option (Fin 2),
      a = { overwrite := ow, packageName := pn, framework := fw.map layoutAt,
            variant := variantValueOf (fw.map layoutAt) va, targetDir := td } := by
  unfold q6Step at h
  cases h6 : ask (fw.map layoutAt).isSome u.variant with
  | error m6 =>
    rw [h6] at h
    exact Except.noConfusion (show (Except.error m6 : Except String Answers) = .ok a from h)
  | ok va =>
    rw [h6] at h
    exact ⟨va, (Except.ok.inj h).symm⟩

theorem q5Step_ok_inv (env : Env) (u : UserScript) (td : String) (ow : Option Bool)
    (pn : Option String) (a : Answers)
    (h : q5Step env u td ow pn = .ok a) :
    ∃ (fw va : Option (Fin 2)),
      a = { overwrite := ow, packageName := pn, framework := fw.map layoutAt,
            variant := variantValueOf (fw.map layoutAt) va, targetDir := td } := by
  unfold q5Step at h
  cases h5 : ask (!(strTruthy env.argTemplate &&
      TEMPLATES.contains (env.argTemplate.getD ""))) u.framework with
  | error m5 =>
    rw [h5] at h
    exact Except.noConfusion (show (Except.error m5 : Except String Answers) = .ok a from h)
  | ok fw =>
    rw [h5] at h
    obtain ⟨va, hva⟩ := q6Step_ok_inv env u td ow pn fw a h
    exact ⟨fw, va, hva⟩

theorem afterOverwrite_ok_inv (env : Env) (u : UserScript) (td : String)
    (ow : Option Bool) (a : Answers)
    (h : afterOverwrite env u td ow = .ok a) :
    ¬ ow = some false ∧
    ∃ (pn : Option String) (fw va : Option (Fin 2)),
      a = { overwrite := ow, packageName := pn, framework := fw.map layoutAt,
            variant := variantValueOf (fw.map layoutAt) va, targetDir := td } := by
  unfold afterOverwrite at h
  by_cases hg : ow = some false
  · rw [if_pos hg] at h
    exact Except.noConfusion h
  · rw [if_neg hg] at h
    cases h4 : ask (!(isValidPackageName (getProjectName env td))) u.packageName with
    | error m4 =>
      rw [h4] at h
      exact Except.noConfusion (show (Except.error m4 : Except String Answers) = .ok a from h)
    | ok pn =>
      rw [h4] at h
      obtain ⟨fw, va, hva⟩ := q5Step_ok_inv env u td ow pn a h
      exact ⟨hg, pn, fw, va, hva⟩

theorem runPrompts_ok_inv (env : Env) (u : UserScript) (a : Answers)
    (h : runPrompts env u = .ok a) :
    ∃ (td : String) (ow : Option Bool) (pn : Option String)
      (fw va : Option (Fin 2)),
      ¬ ow = some false ∧
      a = { overwrite := ow, packageName := pn, framework := fw.map layoutAt,
            variant := variantValueOf (fw.map layoutAt) va, targetDir := td } := by
  unfold runPrompts at h
  cases h1 : q1TargetDir env u with
  | error m1 =>
    rw [h1] at h
    exact Except.noConfusion (show (Except.error m1 : Except String Answers) = .ok a from h)
  | ok td =>
    rw [h1] at h
    have h2all : (match ask (overwriteAsked env td) u.overwrite with
      | Except.error m => (Except.error m : Except String Answers)
      | Except.ok ow => afterOverwrite env u td ow) = .ok a := h
    cases h2 : ask (overwriteAsked env td) u.overwrite with
    | error m2 =>
      rw [h2] at h2all
      exact Except.noConfusion
        (show (Except.error m2 : Except String Answers) = .ok a from h2all)
    | ok ow =>
      rw [h2] at h2all
      obtain ⟨hg, pn, fw, va, hva⟩ := afterOverwrite_ok_inv env u td ow a h2all
      exact ⟨td, ow, pn, fw, va, hg, hva⟩

/-- Claim C1: answering no to a presented overwrite confirmation, or
aborting any presented prompt, raises the cancellation error; the top level
catches it, reports only the cancellation message, and the effect trace is
empty, so no file or directory is created, removed or modified (neither
emptyDir nor mkdirSync nor any copy or write is reached). -/
theorem init_cancellation_clean (env : Env) (u : UserScript) :
    (∀ m, runPrompts env u = .error m → m = cancelMsg) ∧
    (∀ m, runPrompts env u = .error m → runInit env u = (.cancelled m, [])) ∧
    (∀ td, q1TargetDir env u = .ok td → overwriteAsked env td = true →
      u.overwrite = .answer false → runPrompts env u = .error cancelMsg) ∧
    (∀ td, q1TargetDir env u = .ok td → overwriteAsked env td = true →
      u.overwrite = .abort → runPrompts env u = .error cancelMsg) ∧
    (strTruthy (argTargetDirOf env) = false → u.projectName = .abort →
      runPrompts env u = .error cancelMsg) ∧
    (∀ (α : Type) (r : Resp α), r = .abort →
      ask true r = (.error cancelMsg : Except String (Option α))) ∧
    (∀ a t e, runInit env u = (.completed a t, e) → a.overwrite ≠ some false) := by
  refine ⟨runPrompts_error_msg env u, ?_, ?_, ?_, ?_, ?_, ?_⟩
  · intro m h
    unfold runInit
    rw [h]
  · intro td h1 h2 h3
    unfold runPrompts
    rw [h1]
    show (match ask (overwriteAsked env td) u.overwrite with
      | Except.error m => (Except.error m : Except String Answers)
      | Except.ok ow => afterOverwrite env u td ow) = Except.error cancelMsg
    rw [h2, h3]
    rfl
  · intro td h1 h2 h3
    unfold runPrompts
    rw [h1]
    show (match ask (overwriteAsked env td) u.overwrite with
      | Except.error m => (Except.error m : Except String Answers)
      | Except.ok ow => afterOverwrite env u td ow) = Except.error cancelMsg
    rw [h2, h3]
    rfl
  · intro h1 h2
    unfold runPrompts q1TargetDir
    rw [h1, h2]
    rfl
  · intro α r h
    rw [h]
    rfl
  · intro a t e h
    cases hp : runPrompts env u with
    | error m =>
      have h1 : (runInit env u).fst = .cancelled m := by
        unfold runInit
        rw [hp]
      rw [h] at h1
      exact Outcome.noConfusion (show (Outcome.completed a t) = .cancelled m from h1)
    | ok a2 =>
      have h1 : (runInit env u).fst = Outcome.completed a2
          (resolveTemplate a2.variant (a2.framework.map (fun f => f.name)) env.argTemplate) := by
        unfold runInit
        rw [hp]
      rw [h] at h1
      have h2 : Outcome.completed a t = Outcome.completed a2
          (resolveTemplate a2.variant (a2.framework.map (fun f => f.name)) env.argTemplate) := h1
      obtain ⟨ha, -⟩ := Outcome.completed.inj h2
      obtain ⟨td, ow, pn, fw, va, hg, hrec⟩ := runPrompts_ok_inv env u a2 hp
      rw [ha, hrec]
      exact hg

/-- Concrete invocation for the claim C1 witness: a command-line target
directory naming an existing non-empty directory, and a user who answers no
to the overwrite confirmation. -/
def envW : Env :=
  { argTargetDirRaw := some "proj", argTemplate := none, cwdBasename := "ws",
    fs := fun p => if p = "proj" then some ["a.txt"] else none,
    templateFiles := ["package.json", "index.html"], cwd := "/w" }

def uW : UserScript :=
  { projectName := .answer "proj", overwrite := .answer false,
    packageName := .answer "proj", framework := .answer 0, variant := .answer 0 }

/-- Claim C1 witness: on the concrete run where the overwrite confirmation
is presented and declined, init reports the cancellation message and the
effect trace is empty. -/
theorem init_cancellation_clean_witness :
    runInit envW uW = (.cancelled cancelMsg, []) := by
  have h := init_cancellation_clean envW uW
  have h3 := h.2.2.1 "proj" rfl rfl rfl
  exact h.2.1 cancelMsg h3

/-! ## Claim C3: template resolution priority -/

theorem layoutAt_mem : ∀ i : Fin 2, layoutAt i ∈ LAYOUTS := by decide

theorem variantValue_mem_TEMPLATES :
    ∀ (i j : Fin 2) (v : String),
      ((layoutAt i).variants.get? j.val).map (fun x => x.name) = some v → v ∈ TEMPLATES := by
  intro i j v h
  fin_cases i <;> fin_cases j <;>
    (simp [layoutAt, LAYOUTS] at h; rw [← h]; decide)

/-- Claim C3: the effective template identifier follows the exact priority
of line 221: the variant answer when present (variant answers are catalog
template names, hence truthy), else the chosen layout's name when a layout
was chosen (catalog layout names are truthy), else the raw command-line
template argument; and every completed init run resolves its template that
way from answers drawn from the catalog. -/
theorem template_resolution_priority :
    (∀ (v : String) (fwName argT : Option String), v ∈ TEMPLATES →
      resolveTemplate (some v) fwName argT = some v) ∧
    (∀ (n : String) (argT : Option String), n ∈ LAYOUTS.map (fun f => f.name) →
      resolveTemplate none (some n) argT = some n) ∧
    (∀ argT : Option String, resolveTemplate none none argT = argT) ∧
    (∀ env u a t e, runInit env u = (.completed a t, e) →
      t = resolveTemplate a.variant (a.framework.map (fun f => f.name)) env.argTemplate ∧
      (∀ v, a.variant = some v → v ∈ TEMPLATES) ∧
      (∀ f, a.framework = some f → f ∈ LAYOUTS)) := by
  refine ⟨?_, ?_, ?_, ?_⟩
  · intro v fwName argT hv
    have hne : ¬ v = "" := by
      intro he
      rw [he] at hv
      revert hv
      decide
    simp [resolveTemplate, jsOrStr, strTruthy, hne]
  · intro n argT hn
    have hne : ¬ n = "" := by
      intro he
      rw [he] at hn
      revert hn
      decide
    simp [resolveTemplate, jsOrStr, strTruthy, hne]
  · intro argT
    rfl
  · intro env u a t e h
    cases hp : runPrompts env u with
    | error m =>
      have h1 : (runInit env u).fst = .cancelled m := by
        unfold runInit
        rw [hp]
      rw [h] at h1
      exact Outcome.noConfusion (show (Outcome.completed a t) = .cancelled m from h1)
    | ok a2 =>
      have h1 : (runInit env u).fst = Outcome.completed a2
          (resolveTemplate a2.variant (a2.framework.map (fun f => f.name)) env.argTemplate) := by
        unfold runInit
        rw [hp]
      rw [h] at h1
      have h2 : Outcome.completed a t = Outcome.completed a2
          (resolveTemplate a2.variant (a2.framework.map (fun f => f.name)) env.argTemplate) := h1
      obtain ⟨ha, htm⟩ := Outcome.completed.inj h2
      obtain ⟨td, ow, pn, fw, va, hg, hrec⟩ := runPrompts_ok_inv env u a2 hp
      subst ha
      refine ⟨htm, ?_, ?_⟩
      · intro v hv
        rw [hrec] at hv
        have hv2 : variantValueOf (fw.map layoutAt) va = some v := hv
        cases fw with
        | none => exact Option.noConfusion hv2
        | some i =>
          cases va with
          | none => exact Option.noConfusion hv2
          | some j =>
            have hv3 : ((layoutAt i).variants.get? j.val).map (fun x => x.name) = some v := hv2
            exact variantValue_mem_TEMPLATES i j v hv3
      · intro f hf
        rw [hrec] at hf
        have hf2 : (fw.map layoutAt) = some f := hf
        cases fw with
        | none => exact Option.noConfusion hf2
        | some i =>
          have : layoutAt i = f := Option.some.inj hf2
          rw [← this]
          exact layoutAt_mem i

/-- Claim C3 witness: the first-priority case at a concrete catalog
template name. -/
theorem template_resolution_priority_witness :
    resolveTemplate (some "html-css") none none = some "html-css" :=
  template_resolution_priority.1 "html-css" none none (by decide)

/-! ## Claim C2: the manifest rewrite (src/index.js lines 246-250)

The rewrite is JSON.parse, one property assignment, JSON.stringify with
two-space indentation plus a trailing newline.  JSON values are embedded
with numbers restricted to integers (the rewrite performs no arithmetic;
modelling IEEE-754 shortest-round-trip printing is out of scope of the
claim), and strings as sequences of Unicode scalar values. -/

inductive Json where
  | null
  | bool (b : Bool)
  | num (n : Int)
  | str (s : String)
  | arr (elems : List Json)
  | obj (fields : List (String × Json))

/-- Opening curly brace code point. -/
def obrace : Char := '\x7b'

/-- Closing curly brace code point. -/
def cbrace : Char := '\x7d'

/-- Decimal digits of a natural number, most significant first. -/
def serNat (n : Nat) : List Char :=
  if n = 0 then ['0']
  else (Nat.digits 10 n).reverse.map (fun d => Char.ofNat (48 + d))

/-- An integer as JSON.stringify prints it. -/
def serInt (i : Int) : List Char :=
  if i < 0 then '-' :: serNat i.natAbs else serNat i.natAbs

/-- Lowercase hexadecimal digit. -/
def hexChar (d : Nat) : Char :=
  if d < 10 then Char.ofNat (48 + d) else Char.ofNat (87 + d)

/-- The escaping JSON.stringify applies inside string literals: quote and
backslash escaped, the named control escapes, a four-hex-digit escape for
every other control character, everything else verbatim. -/
def escapeChar (c : Char) : List Char :=
  if c = '"' then ['\\', '"']
  else if c = '\\' then ['\\', '\\']
  else if c = '\x08' then ['\\', 'b']
  else if c = '\x09' then ['\\', 't']
  else if c = '\x0a' then ['\\', 'n']
  else if c = '\x0c' then ['\\', 'f']
  else if c = '\x0d' then ['\\', 'r']
  else if c.toNat < 0x20 then
    ['\\', 'u', '0', '0', hexChar (c.toNat / 16), hexChar (c.toNat % 16)]
  else [c]

/-- Escaped content of a string literal. -/
def escapeChars (l : List Char) : List Char := (l.map escapeChar).flatten

/-- A JSON string literal: quote, escaped content, quote. -/
def serStr (s : String) : List Char :=
  '"' :: escapeChars s.data ++ ['"']

/-- The indentation JSON.stringify(v, null, 2) writes before an entry at
nesting depth d. -/
def indentChars (d : Nat) : List Char := List.replicate (2 * d) ' '

mutual
/-- JSON.stringify(v, null, 2): the pretty-printing serializer, d being the
current nesting depth. -/
def serVal : Json → Nat → List Char
  | .null, _ => ['n', 'u', 'l', 'l']
  | .bool true, _ => ['t', 'r', 'u', 'e']
  | .bool false, _ => ['f', 'a', 'l', 's', 'e']
  | .num i, _ => serInt i
  | .str s, _ => serStr s
  | .arr [], _ => ['[', ']']
  | .arr (e :: es), d =>
    '[' :: '\n' :: (serElems (e :: es) (d + 1) ++ '\n' :: indentChars d ++ [']'])
  | .obj [], _ => [obrace, cbrace]
  | .obj (f :: fs), d =>
    obrace :: '\n' :: (serFields (f :: fs) (d + 1) ++ '\n' :: indentChars d ++ [cbrace])

/-- Array elements, one per line at depth d, comma-separated. -/
def serElems : List Json → Nat → List Char
  | [], _ => []
  | [e], d => indentChars d ++ serVal e d
  | e :: e2 :: es, d =>
    indentChars d ++ serVal e d ++ ',' :: '\n' :: serElems (e2 :: es) d

/-- Object fields, one per line at depth d: key literal, colon, space,
value, comma-separated. -/
def serFields : List (String × Json) → Nat → List Char
  | [], _ => []
  | [(k, v)], d => indentChars d ++ serStr k ++ ':' :: ' ' :: serVal v d
  | (k, v) :: f2 :: fs, d =>
    indentChars d ++ serStr k ++ ':' :: ' ' :: serVal v d ++ ',' :: '\n' :: serFields (f2 :: fs) d
end

/-- The whitespace JSON.parse skips between tokens. -/
def jsonWs (c : Char) : Bool := c = ' ' || c = '\t' || c = '\n' || c = '\r'

def skipWs : List Char → List Char
  | [] => []
  | c :: rest => if jsonWs c then skipWs rest else c :: rest

/-- Value of a hexadecimal digit. -/
def hexVal (c : Char) : Option Nat :=
  if 48 ≤ c.toNat && c.toNat ≤ 57 then some (c.toNat - 48)
  else if 97 ≤ c.toNat && c.toNat ≤ 102 then some (c.toNat - 87)
  else if 65 ≤ c.toNat && c.toNat ≤ 70 then some (c.toNat - 55)
  else none

/-- The single-character escapes JSON.parse accepts. -/
def unescape (e : Char) : Option Char :=
  if e = '"' then some '"'
  else if e = '\\' then some '\\'
  else if e = '/' then some '/'
  else if e = 'b' then some '\x08'
  else if e = 'f' then some '\x0c'
  else if e = 'n' then some '\x0a'
  else if e = 'r' then some '\x0d'
  else if e = 't' then some '\x09'
  else none

/-- Body of a string literal after the opening quote: the decoded content
and the input after the closing quote. -/
def parseStrBody : List Char → Option (List Char × List Char)
  | [] => none
  | c :: rest =>
    if c = '"' then some ([], rest)
    else if c = '\\' then
      match rest with
      | [] => none
      | e :: rest2 =>
        if e = 'u' then
          match rest2 with
          | h1 :: h2 :: h3 :: h4 :: rest3 =>
            match hexVal h1, hexVal h2, hexVal h3, hexVal h4 with
            | some a, some b, some c2, some d2 =>
              (parseStrBody rest3).map
                (fun r => (Char.ofNat (((a * 16 + b) * 16 + c2) * 16 + d2) :: r.1, r.2))
            | _, _, _, _ => none
          | _ => none
        else
          match unescape e with
          | some u => (parseStrBody rest2).map (fun r => (u :: r.1, r.2))
          | none => none
    else (parseStrBody rest).map (fun r => (c :: r.1, r.2))

/-- Decimal value of a digit run, most significant first. -/
def digitsVal (l : List Char) : Nat :=
  l.foldl (fun a c => a * 10 + (c.toNat - 48)) 0

/-- Longest leading digit run and its value; none when there is no digit. -/
def parseDigits (l : List Char) : Option (Nat × List Char) :=
  if l.takeWhile isDigitCh = [] then none
  else some (digitsVal (l.takeWhile isDigitCh), l.dropWhile isDigitCh)

mutual
/-- Fuel-indexed JSON value parser, modelling JSON.parse on the grammar the
serializer emits (permissive about token boundaries, which well-formed
inputs never exercise).  The fuel bounds the recursion depth; the top level
instantiates it with the input length, which the size bound shows is always
sufficient for serializer outputs. -/
def parseVal : Nat → List Char → Option (Json × List Char)
  | 0, _ => none
  | fuel + 1, l =>
    match skipWs l with
    | [] => none
    | c :: rest =>
      if c = 'n' then
        match rest with
        | 'u' :: 'l' :: 'l' :: r => some (.null, r)
        | _ => none
      else if c = 't' then
        match rest with
        | 'r' :: 'u' :: 'e' :: r => some (.bool true, r)
        | _ => none
      else if c = 'f' then
        match rest with
        | 'a' :: 'l' :: 's' :: 'e' :: r => some (.bool false, r)
        | _ => none
      else if c = '"' then
        (parseStrBody rest).map (fun r => (.str ⟨r.1⟩, r.2))
      else if c = '-' then
        match parseDigits rest with
        | some (n, r) => some (.num (-(n : Int)), r)
        | none => none
      else if isDigitCh c then
        match parseDigits (c :: rest) with
        | some (n, r) => some (.num (n : Int), r)
        | none => none
      else if c = '[' then
        match skipWs rest with
        | [] => none
        | c2 :: r2 =>
          if c2 = ']' then some (.arr [], r2)
          else (parseElems fuel rest).map (fun r => (.arr r.1, r.2))
      else if c = obrace then
        match skipWs rest with
        | [] => none
        | c2 :: r2 =>
          if c2 = cbrace then some (.obj [], r2)
          else (parseFields fuel rest).map (fun r => (.obj r.1, r.2))
      else none

/-- Comma-separated values up to the closing bracket. -/
def parseElems : Nat → List Char → Option (List Json × List Char)
  | 0, _ => none
  | fuel + 1, l =>
    match parseVal fuel l with
    | none => none
    | some (j, r) =>
      match skipWs r with
      | [] => none
      | c2 :: r2 =>
        if c2 = ',' then (parseElems fuel r2).map (fun t => (j :: t.1, t.2))
        else if c2 = ']' then some ([j], r2)
        else none

/-- Comma-separated key-colon-value pairs up to the closing brace. -/
def parseFields : Nat → List Char → Option (List (String × Json) × List Char)
  | 0, _ => none
  | fuel + 1, l =>
    match skipWs l with
    | [] => none
    | c0 :: r =>
      if c0 = '"' then
        match parseStrBody r with
        | none => none
        | some (k, r2) =>
          match skipWs r2 with
          | [] => none
          | c3 :: r3 =>
            if c3 = ':' then
              match parseVal fuel r3 with
              | none => none
              | some (v, r4) =>
                match skipWs r4 with
                | [] => none
                | c5 :: r5 =>
                  if c5 = ',' then
                    (parseFields fuel r5).map (fun t => ((⟨k⟩, v) :: t.1, t.2))
                  else if c5 = cbrace then some ([(⟨k⟩, v)], r5)
                  else none
            else none
      else none
end

/-- JSON.parse: one value, then nothing but trailing whitespace. -/
def parseJson (l : List Char) : Option Json :=
  match parseVal (l.length + 1) l with
  | some (j, r) => if skipWs r = [] then some j else none
  | none => none

/-- Line 248: pkg.name = value.  JavaScript property assignment updates an
existing name property in place, keeping its position, or appends a new one
at the end. -/
def assignName (fields : List (String × Json)) (nm : String) : List (String × Json) :=
  if fields.any (fun e => e.1 = "name") then
    fields.map (fun e => if e.1 = "name" then (e.1, Json.str nm) else e)
  else fields ++ [("name", Json.str nm)]

/-- Line 248 right-hand side: packageName || getProjectName(). -/
def effectiveName (packageName : Option String) (projectName : String) : String :=
  match jsOrStr packageName (some projectName) with
  | some s => s
  | none => projectName

/-- Lines 246-250: the text written for package.json: the parsed manifest
with the name assigned, stringified with two-space indentation, plus a
trailing newline. -/
def writtenManifest (fields : List (String × Json)) (nm : String) : List Char :=
  serVal (Json.obj (assignName fields nm)) 0 ++ ['\n']

/-! ## Round-trip lemmas: whitespace and characters -/

/-- A list made of JSON whitespace only. -/
def wsOnly (W : List Char) : Prop := ∀ c ∈ W, jsonWs c = true

/-- A list that does not start with a decimal digit (the token-boundary
condition the number parser needs). -/
def notDigitHead (l : List Char) : Prop :=
  ∀ c, l.head? = some c → isDigitCh c = false

theorem charOfNat_toNat (n : Nat) (h : n < 0xd800) : (Char.ofNat n).toNat = n := by
  have hv : n.isValidChar := Or.inl h
  simp [Char.ofNat, hv, Char.ofNatAux, Char.toNat, UInt32.toNat, BitVec.toNat_ofNatLt]

theorem skipWs_cons_not (c : Char) (l : List Char) (h : jsonWs c = false) :
    skipWs (c :: l) = c :: l := by
  simp [skipWs, h]

theorem skipWs_append_ws (W : List Char) (l : List Char) (h : wsOnly W) :
    skipWs (W ++ l) = skipWs l := by
  induction W with
  | nil => rfl
  | cons a t ih =>
    have ha := h a (List.mem_cons_self a t)
    simp only [List.cons_append, skipWs, ha, if_pos]
    exact ih (fun c hc => h c (List.mem_cons_of_mem a hc))

theorem wsOnly_indent (d : Nat) : wsOnly (indentChars d) := by
  intro c hc
  rw [indentChars] at hc
  rw [List.eq_of_mem_replicate hc]
  decide

theorem skipWs_indent (d : Nat) (l : List Char) :
    skipWs (indentChars d ++ l) = skipWs l :=
  skipWs_append_ws _ l (wsOnly_indent d)

theorem skipWs_newline (l : List Char) : skipWs ('\n' :: l) = skipWs l := by
  simp [skipWs, jsonWs]

/-! ## Round-trip lemmas: string literals -/

theorem hexVal_hexChar (d : Nat) (h : d < 16) : hexVal (hexChar d) = some d := by
  interval_cases d <;> decide

theorem parseStrBody_escape :
    ∀ (l : List Char) (rest : List Char),
      parseStrBody (escapeChars l ++ '"' :: rest) = some (l, rest) := by
  intro l
  induction l with
  | nil =>
    intro rest
    show parseStrBody ('"' :: rest) = some ([], rest)
    rw [parseStrBody.eq_def]
    simp
  | cons c t ih =>
    intro rest
    have hsplit : escapeChars (c :: t) = escapeChar c ++ escapeChars t := by
      simp [escapeChars]
    rw [hsplit, List.append_assoc]
    by_cases h1 : c = '"'
    · rw [escapeChar, if_pos h1, h1]
      rw [parseStrBody.eq_def]
      simp [unescape, ih]
    · by_cases h2 : c = '\\'
      · rw [escapeChar, if_neg h1, if_pos h2, h2]
        rw [parseStrBody.eq_def]
        simp [unescape, ih]
      · by_cases h3 : c = '\x08'
        · rw [escapeChar, if_neg h1, if_neg h2, if_pos h3, h3]
          rw [parseStrBody.eq_def]
          simp [unescape, ih]
        · by_cases h4 : c = '\x09'
          · rw [escapeChar, if_neg h1, if_neg h2, if_neg h3, if_pos h4, h4]
            rw [parseStrBody.eq_def]
            simp [unescape, ih]
          · by_cases h5 : c = '\x0a'
            · rw [escapeChar, if_neg h1, if_neg h2, if_neg h3, if_neg h4, if_pos h5, h5]
              rw [parseStrBody.eq_def]
              simp [unescape, ih]
            · by_cases h6 : c = '\x0c'
              · rw [escapeChar, if_neg h1, if_neg h2, if_neg h3, if_neg h4, if_neg h5,
                  if_pos h6, h6]
                rw [parseStrBody.eq_def]
                simp [unescape, ih]
              · by_cases h7 : c = '\x0d'
                · rw [escapeChar, if_neg h1, if_neg h2, if_neg h3, if_neg h4, if_neg h5,
                    if_neg h6, if_pos h7, h7]
                  rw [parseStrBody.eq_def]
                  simp [unescape, ih]
                · by_cases h8 : c.toNat < 0x20
                  · rw [escapeChar, if_neg h1, if_neg h2, if_neg h3, if_neg h4, if_neg h5,
                      if_neg h6, if_neg h7, if_pos h8]
                    have hhi : c.toNat / 16 < 16 := by omega
                    have hlo : c.toNat % 16 < 16 := by omega
                    rw [parseStrBody.eq_def]
                    simp only [List.cons_append]
                    simp [hexVal_hexChar _ hhi, hexVal_hexChar _ hlo, ih,
                      (by decide : hexVal '0' = some 0)]
                    rw [show (c.toNat / 16) * 16 + c.toNat % 16 = c.toNat by omega]
                    exact Char.ofNat_toNat c
                  · rw [escapeChar, if_neg h1, if_neg h2, if_neg h3, if_neg h4, if_neg h5,
                      if_neg h6, if_neg h7, if_neg h8]
                    show parseStrBody (c :: (escapeChars t ++ '"' :: rest)) = some (c :: t, rest)
                    rw [parseStrBody.eq_def]
                    simp [h1, h2, ih]

/-! ## Round-trip lemmas: numbers -/

theorem serNat_ne_nil (n : Nat) : serNat n ≠ [] := by
  by_cases h : n = 0
  · rw [serNat, if_pos h]
    exact List.cons_ne_nil _ _
  · rw [serNat, if_neg h]
    simp [Nat.digits_ne_nil_iff_ne_zero.mpr h]

theorem serNat_all_digits (n : Nat) : ∀ c ∈ serNat n, isDigitCh c = true := by
  by_cases h : n = 0
  · rw [serNat, if_pos h]
    intro c hc
    simp at hc
    rw [hc]
    decide
  · rw [serNat, if_neg h]
    intro c hc
    obtain ⟨d, hd, hcd⟩ := List.mem_map.mp hc
    have hd10 : d < 10 := Nat.digits_lt_base (by norm_num) (List.mem_reverse.mp hd)
    rw [← hcd]
    simp only [isDigitCh, charOfNat_toNat (48 + d) (by omega)]
    simp only [Bool.and_eq_true, decide_eq_true_eq]
    omega

theorem serNat_head (n : Nat) :
    ∃ c t, serNat n = c :: t ∧ isDigitCh c = true := by
  cases hs : serNat n with
  | nil => exact absurd hs (serNat_ne_nil n)
  | cons c t =>
    refine ⟨c, t, rfl, ?_⟩
    have : c ∈ serNat n := by rw [hs]; exact List.mem_cons_self c t
    exact serNat_all_digits n c this

theorem foldl_map_digitChars :
    ∀ (ds : List Nat), (∀ d ∈ ds, d < 10) → ∀ (a : Nat),
      (ds.map (fun d => Char.ofNat (48 + d))).foldl (fun x c => x * 10 + (c.toNat - 48)) a =
        ds.foldl (fun x d => x * 10 + d) a := by
  intro ds
  induction ds with
  | nil => intro _ a; rfl
  | cons d t ih =>
    intro h a
    have hd := h d (List.mem_cons_self d t)
    simp only [List.map_cons, List.foldl_cons]
    rw [charOfNat_toNat (48 + d) (by omega)]
    rw [show 48 + d - 48 = d by omega]
    exact ih (fun x hx => h x (List.mem_cons_of_mem d hx)) (a * 10 + d)

theorem foldl_rev_ofDigits :
    ∀ (ds : List Nat) (a : Nat),
      ds.reverse.foldl (fun x d => x * 10 + d) a = a * 10 ^ ds.length + Nat.ofDigits 10 ds := by
  intro ds
  induction ds with
  | nil => intro a; simp [Nat.ofDigits]
  | cons d t ih =>
    intro a
    rw [List.reverse_cons, List.foldl_append, ih a]
    simp only [List.foldl_cons, List.foldl_nil, Nat.ofDigits_cons, List.length_cons]
    ring

theorem digitsVal_serNat (n : Nat) : digitsVal (serNat n) = n := by
  by_cases h : n = 0
  · rw [h]; decide
  · rw [serNat, if_neg h, digitsVal]
    rw [foldl_map_digitChars _
      (fun d hd => Nat.digits_lt_base (by norm_num) (List.mem_reverse.mp hd)) 0]
    rw [foldl_rev_ofDigits]
    simp [Nat.ofDigits_digits]

theorem takeWhile_nil_of_head (p : Char → Bool) (B : List Char)
    (h : ∀ c, B.head? = some c → p c = false) : B.takeWhile p = [] := by
  cases B with
  | nil => rfl
  | cons b t =>
    have := h b rfl
    simp [List.takeWhile_cons, this]

theorem takeWhile_append_all (p : Char → Bool) :
    ∀ (A B : List Char), (∀ c ∈ A, p c = true) → (∀ c, B.head? = some c → p c = false) →
      (A ++ B).takeWhile p = A ∧ (A ++ B).dropWhile p = B := by
  intro A
  induction A with
  | nil =>
    intro B _ hB
    exact ⟨takeWhile_nil_of_head p B hB, dropWhile_eq_self_of_head p B hB⟩
  | cons a t ih =>
    intro B hA hB
    have ha := hA a (List.mem_cons_self a t)
    have ⟨h1, h2⟩ := ih B (fun c hc => hA c (List.mem_cons_of_mem a hc)) hB
    constructor
    · simp only [List.cons_append, List.takeWhile_cons, ha, if_pos]
      rw [h1]
    · simp only [List.cons_append]
      rw [List.dropWhile_cons_of_pos ha, h2]

theorem parseDigits_serNat (n : Nat) (rest : List Char) (h : notDigitHead rest) :
    parseDigits (serNat n ++ rest) = some (n, rest) := by
  obtain ⟨htw, hdw⟩ := takeWhile_append_all isDigitCh (serNat n) rest (serNat_all_digits n) h
  rw [parseDigits, htw, hdw, if_neg (serNat_ne_nil n), digitsVal_serNat]

/-! ## Round-trip lemmas: first characters and whitespace absorption -/

theorem digit_not_special (c : Char) (hd : isDigitCh c = true) (x : Char)
    (hx : x.toNat < 48 ∨ 57 < x.toNat) : ¬ c = x := by
  intro he
  subst he
  simp only [isDigitCh, Bool.and_eq_true, decide_eq_true_eq] at hd
  omega

theorem digit_not_ws (c : Char) (hd : isDigitCh c = true) : jsonWs c = false := by
  simp [jsonWs, digit_not_special c hd ' ' (by decide), digit_not_special c hd '\t' (by decide),
    digit_not_special c hd '\n' (by decide), digit_not_special c hd '\r' (by decide)]

theorem serVal_head (j : Json) (d : Nat) :
    ∃ c t, serVal j d = c :: t ∧ jsonWs c = false ∧ ¬ c = ']' := by
  cases j with
  | null => exact ⟨'n', _, rfl, by decide, by decide⟩
  | bool b =>
    cases b with
    | true => exact ⟨'t', _, rfl, by decide, by decide⟩
    | false => exact ⟨'f', _, rfl, by decide, by decide⟩
  | num i =>
    show ∃ c t, serInt i = c :: t ∧ _
    by_cases hi : i < 0
    · rw [serInt, if_pos hi]
      exact ⟨'-', _, rfl, by decide, by decide⟩
    · rw [serInt, if_neg hi]
      obtain ⟨c, t, hct, hdig⟩ := serNat_head i.natAbs
      exact ⟨c, t, hct, digit_not_ws c hdig, digit_not_special c hdig ']' (by decide)⟩
  | str s => exact ⟨'"', _, rfl, by decide, by decide⟩
  | arr es =>
    cases es with
    | nil => exact ⟨'[', _, rfl, by decide, by decide⟩
    | cons e es => exact ⟨'[', _, rfl, by decide, by decide⟩
  | obj fs =>
    cases fs with
    | nil => exact ⟨obrace, _, rfl, by decide, by decide⟩
    | cons f fs => exact ⟨obrace, _, rfl, by decide, by decide⟩

theorem parseVal_ws (fuel : Nat) (W l : List Char) (hW : wsOnly W) :
    parseVal fuel (W ++ l) = parseVal fuel l := by
  cases fuel with
  | zero => rfl
  | succ fuel =>
    simp only [parseVal]
    rw [skipWs_append_ws W l hW]

theorem serElems_cons_head (e : Json) (es : List Json) (d : Nat) (X : List Char) :
    ∃ (c2 : Char) (r2 : List Char),
      skipWs (serElems (e :: es) d ++ X) = c2 :: r2 ∧ jsonWs c2 = false ∧ ¬ c2 = ']' := by
  obtain ⟨c0, t0, hs0, hws0, hne0⟩ := serVal_head e d
  cases es with
  | nil =>
    show ∃ c2 r2, skipWs ((indentChars d ++ serVal e d) ++ X) = c2 :: r2 ∧ _
    rw [List.append_assoc, skipWs_indent, hs0, List.cons_append, skipWs_cons_not _ _ hws0]
    exact ⟨c0, t0 ++ X, rfl, hws0, hne0⟩
  | cons e2 es2 =>
    show ∃ c2 r2,
      skipWs ((indentChars d ++ serVal e d ++ ',' :: '\n' :: serElems (e2 :: es2) d) ++ X) =
        c2 :: r2 ∧ _
    rw [List.append_assoc, List.append_assoc, skipWs_indent, hs0, List.cons_append,
      skipWs_cons_not _ _ hws0]
    exact ⟨c0, _, rfl, hws0, hne0⟩

theorem serFields_cons_head (f : String × Json) (fs : List (String × Json)) (d : Nat)
    (X : List Char) :
    ∃ r2 : List Char, skipWs (serFields (f :: fs) d ++ X) = '"' :: r2 := by
  obtain ⟨k, v⟩ := f
  cases fs with
  | nil =>
    show ∃ r2, skipWs ((indentChars d ++ serStr k ++ ':' :: ' ' :: serVal v d) ++ X) = '"' :: r2
    rw [List.append_assoc, List.append_assoc, skipWs_indent]
    show ∃ r2, skipWs ('"' :: (escapeChars k.data ++ ['"'] ++ (':' :: ' ' :: serVal v d ++ X))) =
      '"' :: r2
    rw [skipWs_cons_not _ _ (by decide)]
    exact ⟨_, rfl⟩
  | cons f2 fs2 =>
    show ∃ r2, skipWs ((indentChars d ++ serStr k ++ ':' :: ' ' :: serVal v d ++
      ',' :: '\n' :: serFields (f2 :: fs2) d) ++ X) = '"' :: r2
    rw [List.append_assoc, List.append_assoc, List.append_assoc, skipWs_indent]
    show ∃ r2, skipWs ('"' :: (escapeChars k.data ++ ['"'] ++
      (':' :: ' ' :: (serVal v d ++ (',' :: '\n' :: serFields (f2 :: fs2) d ++ X))))) = '"' :: r2
    rw [skipWs_cons_not _ _ (by decide)]
    exact ⟨_, rfl⟩

theorem notDigitHead_cons (c : Char) (l : List Char) (h : isDigitCh c = false) :
    notDigitHead (c :: l) := by
  intro x hx
  rw [List.head?_cons] at hx
  rw [← Option.some.inj hx]
  exact h

/-! ## Sizes -/

mutual
def jsonSize : Json → Nat
  | .null => 1
  | .bool _ => 1
  | .num _ => 1
  | .str _ => 1
  | .arr es => 1 + elemsSize es
  | .obj fs => 1 + fieldsSize fs

def elemsSize : List Json → Nat
  | [] => 0
  | e :: es => 1 + jsonSize e + elemsSize es

def fieldsSize : List (String × Json) → Nat
  | [] => 0
  | (_, v) :: fs => 1 + jsonSize v + fieldsSize fs
end

theorem jsonSize_pos (j : Json) : 1 ≤ jsonSize j := by
  cases j <;> simp [jsonSize]

theorem wsOnly_nl : wsOnly ['\n'] := by
  intro c hc
  simp at hc
  rw [hc]
  decide

theorem wsOnly_space : wsOnly [' '] := by
  intro c hc
  simp at hc
  rw [hc]
  decide

theorem parse_serVal :
    ∀ fuel : Nat,
      (∀ (j : Json) (d : Nat) (rest : List Char), jsonSize j ≤ fuel → notDigitHead rest →
        parseVal fuel (serVal j d ++ rest) = some (j, rest)) ∧
      (∀ (e : Json) (es : List Json) (d d2 : Nat) (W rest : List Char),
        elemsSize (e :: es) ≤ fuel → wsOnly W → notDigitHead rest →
        parseElems fuel
          (W ++ (serElems (e :: es) d ++ '\n' :: (indentChars d2 ++ ']' :: rest))) =
          some (e :: es, rest)) ∧
      (∀ (k : String) (v : Json) (fs : List (String × Json)) (d d2 : Nat) (W rest : List Char),
        fieldsSize ((k, v) :: fs) ≤ fuel → wsOnly W → notDigitHead rest →
        parseFields fuel
          (W ++ (serFields ((k, v) :: fs) d ++ '\n' :: (indentChars d2 ++ cbrace :: rest))) =
          some ((k, v) :: fs, rest)) := by
  intro fuel
  induction fuel with
  | zero =>
    refine ⟨?_, ?_, ?_⟩
    · intro j d rest hsize _
      exact absurd hsize (by have := jsonSize_pos j; omega)
    · intro e es d d2 W rest hsize _ _
      simp [elemsSize] at hsize
    · intro k v fs d d2 W rest hsize _ _
      simp [fieldsSize] at hsize
  | succ fuel ih =>
    obtain ⟨ih1, ih2, ih3⟩ := ih
    refine ⟨?_, ?_, ?_⟩
    · -- values
      intro j d rest hsize hnd
      cases j with
      | null => rfl
      | bool b =>
        cases b with
        | true => rfl
        | false => rfl
      | num i =>
        by_cases hi : i < 0
        · have hser : serVal (Json.num i) d = '-' :: serNat i.natAbs := by
            show serInt i = _
            rw [serInt, if_pos hi]
          rw [hser]
          simp only [List.cons_append, parseVal]
          rw [skipWs_cons_not _ _ (by decide)]
          simp [parseDigits_serNat i.natAbs rest hnd, Int.ofNat_natAbs_of_nonpos (le_of_lt hi)]
        · have hser : serVal (Json.num i) d = serNat i.natAbs := by
            show serInt i = _
            rw [serInt, if_neg hi]
          obtain ⟨c0, t0, hst, hdig⟩ := serNat_head i.natAbs
          have hn := digit_not_special c0 hdig 'n' (by decide)
          have ht := digit_not_special c0 hdig 't' (by decide)
          have hf := digit_not_special c0 hdig 'f' (by decide)
          have hq := digit_not_special c0 hdig '"' (by decide)
          have hm := digit_not_special c0 hdig '-' (by decide)
          have hpd : parseDigits (c0 :: (t0 ++ rest)) = some (i.natAbs, rest) := by
            rw [show c0 :: (t0 ++ rest) = serNat i.natAbs ++ rest by rw [hst]; simp]
            exact parseDigits_serNat _ _ hnd
          rw [hser, hst]
          simp only [List.cons_append, parseVal]
          rw [skipWs_cons_not _ _ (digit_not_ws c0 hdig)]
          simp [hn, ht, hf, hq, hm, hdig, hpd, Int.natAbs_of_nonneg (not_lt.mp hi)]
      | str s =>
        have hform : serVal (Json.str s) d ++ rest =
            '"' :: (escapeChars s.data ++ '"' :: rest) := by
          show serStr s ++ rest = _
          simp [serStr]
        rw [hform]
        simp only [parseVal]
        rw [skipWs_cons_not _ _ (by decide)]
        simp [parseStrBody_escape]
      | arr es =>
        cases es with
        | nil => rfl
        | cons e es2 =>
          have hsz2 : elemsSize (e :: es2) ≤ fuel := by
            simp [jsonSize] at hsize
            omega
          have hform : serVal (Json.arr (e :: es2)) d ++ rest =
              '[' :: (['\n'] ++ (serElems (e :: es2) (d + 1) ++
                '\n' :: (indentChars d ++ ']' :: rest))) := by
            show ('[' :: '\n' ::
              (serElems (e :: es2) (d + 1) ++ '\n' :: indentChars d ++ [']'])) ++ rest = _
            simp [List.append_assoc]
          rw [hform]
          simp only [parseVal]
          rw [skipWs_cons_not _ _ (by decide)]
          obtain ⟨c2, r2, hsk, hws2, hne2⟩ :=
            serElems_cons_head e es2 (d + 1) ('\n' :: (indentChars d ++ ']' :: rest))
          have hskA : skipWs (['\n'] ++ (serElems (e :: es2) (d + 1) ++
              '\n' :: (indentChars d ++ ']' :: rest))) = c2 :: r2 := by
            rw [skipWs_append_ws _ _ wsOnly_nl]
            exact hsk
          rw [List.singleton_append] at hskA
          have hrec := ih2 e es2 (d + 1) d ['\n'] rest hsz2 wsOnly_nl hnd
          rw [List.singleton_append] at hrec
          simp [hskA, hne2, hrec, (by decide : isDigitCh '[' = false)]
      | obj fs =>
        cases fs with
        | nil => rfl
        | cons f fs2 =>
          obtain ⟨k, v⟩ := f
          have hsz2 : fieldsSize ((k, v) :: fs2) ≤ fuel := by
            simp [jsonSize] at hsize
            omega
          have hform : serVal (Json.obj ((k, v) :: fs2)) d ++ rest =
              obrace :: (['\n'] ++ (serFields ((k, v) :: fs2) (d + 1) ++
                '\n' :: (indentChars d ++ cbrace :: rest))) := by
            show (obrace :: '\n' ::
              (serFields ((k, v) :: fs2) (d + 1) ++ '\n' :: indentChars d ++ [cbrace])) ++ rest = _
            simp [List.append_assoc]
          rw [hform]
          simp only [parseVal]
          rw [skipWs_cons_not _ _ (by decide)]
          obtain ⟨r2, hsk⟩ :=
            serFields_cons_head (k, v) fs2 (d + 1) ('\n' :: (indentChars d ++ cbrace :: rest))
          have hskA : skipWs (['\n'] ++ (serFields ((k, v) :: fs2) (d + 1) ++
              '\n' :: (indentChars d ++ cbrace :: rest))) = '"' :: r2 := by
            rw [skipWs_append_ws _ _ wsOnly_nl]
            exact hsk
          rw [List.singleton_append] at hskA
          have hrec := ih3 k v fs2 (d + 1) d ['\n'] rest hsz2 wsOnly_nl hnd
          rw [List.singleton_append] at hrec
          simp [hskA, (by decide : ¬ ('"' : Char) = cbrace), hrec,
            (by decide : isDigitCh obrace = false), (by decide : ¬ obrace = 'n'),
            (by decide : ¬ obrace = 't'), (by decide : ¬ obrace = 'f'),
            (by decide : ¬ obrace = '"'), (by decide : ¬ obrace = '-'),
            (by decide : ¬ obrace = '[')]
    · -- element lists
      intro e es d d2 W rest hsize hW hnd
      have hszE : jsonSize e ≤ fuel := by
        simp [elemsSize] at hsize
        omega
      cases es with
      | nil =>
        simp only [parseElems]
        have hpv : parseVal fuel
            (W ++ (serElems [e] d ++ '\n' :: (indentChars d2 ++ ']' :: rest))) =
            some (e, '\n' :: (indentChars d2 ++ ']' :: rest)) := by
          rw [parseVal_ws fuel W _ hW]
          show parseVal fuel
            ((indentChars d ++ serVal e d) ++ ('\n' :: (indentChars d2 ++ ']' :: rest))) = _
          rw [List.append_assoc, parseVal_ws fuel _ _ (wsOnly_indent d)]
          exact ih1 e d _ hszE (notDigitHead_cons _ _ (by decide))
        rw [hpv]
        have hsk : skipWs ('\n' :: (indentChars d2 ++ ']' :: rest)) = ']' :: rest := by
          rw [skipWs_newline, skipWs_indent, skipWs_cons_not _ _ (by decide)]
        simp [hsk]
      | cons e2 es2 =>
        have hsz2 : elemsSize (e2 :: es2) ≤ fuel := by
          simp [elemsSize, jsonSize] at hsize ⊢
          omega
        simp only [parseElems]
        have hT : serElems (e :: e2 :: es2) d ++ '\n' :: (indentChars d2 ++ ']' :: rest) =
            indentChars d ++ (serVal e d ++ (',' :: '\n' :: (serElems (e2 :: es2) d ++
              '\n' :: (indentChars d2 ++ ']' :: rest)))) := by
          show (indentChars d ++ serVal e d ++ ',' :: '\n' :: serElems (e2 :: es2) d) ++ _ = _
          simp [List.append_assoc]
        rw [hT]
        have hpv : parseVal fuel (W ++ (indentChars d ++ (serVal e d ++
            (',' :: '\n' :: (serElems (e2 :: es2) d ++
              '\n' :: (indentChars d2 ++ ']' :: rest)))))) =
            some (e, ',' :: '\n' :: (serElems (e2 :: es2) d ++
              '\n' :: (indentChars d2 ++ ']' :: rest))) := by
          rw [parseVal_ws fuel W _ hW, parseVal_ws fuel _ _ (wsOnly_indent d)]
          exact ih1 e d _ hszE (notDigitHead_cons _ _ (by decide))
        rw [hpv]
        have hsk : skipWs (',' :: '\n' :: (serElems (e2 :: es2) d ++
            '\n' :: (indentChars d2 ++ ']' :: rest))) =
            ',' :: '\n' :: (serElems (e2 :: es2) d ++
              '\n' :: (indentChars d2 ++ ']' :: rest)) :=
          skipWs_cons_not _ _ (by decide)
        have hrec := ih2 e2 es2 d d2 ['\n'] rest hsz2 wsOnly_nl hnd
        rw [List.singleton_append] at hrec
        simp [hsk, hrec]
    · -- field lists
      intro k v fs d d2 W rest hsize hW hnd
      have hszV : jsonSize v ≤ fuel := by
        simp [fieldsSize] at hsize
        omega
      cases fs with
      | nil =>
        simp only [parseFields]
        have hsk1 : skipWs (W ++ (serFields [(k, v)] d ++
            '\n' :: (indentChars d2 ++ cbrace :: rest))) =
            '"' :: (escapeChars k.data ++ '"' :: (':' :: (' ' :: (serVal v d ++
              '\n' :: (indentChars d2 ++ cbrace :: rest))))) := by
          rw [skipWs_append_ws _ _ hW]
          show skipWs ((indentChars d ++ serStr k ++ ':' :: ' ' :: serVal v d) ++
            ('\n' :: (indentChars d2 ++ cbrace :: rest))) = _
          rw [List.append_assoc, List.append_assoc, skipWs_indent]
          show skipWs ('"' :: (escapeChars k.data ++ ['"'] ++
            (':' :: ' ' :: serVal v d ++ ('\n' :: (indentChars d2 ++ cbrace :: rest))))) = _
          rw [skipWs_cons_not _ _ (by decide)]
          simp [List.append_assoc]
        rw [hsk1]
        have hpv : parseVal fuel (' ' :: (serVal v d ++
            '\n' :: (indentChars d2 ++ cbrace :: rest))) =
            some (v, '\n' :: (indentChars d2 ++ cbrace :: rest)) := by
          show parseVal fuel ([' '] ++ (serVal v d ++
            '\n' :: (indentChars d2 ++ cbrace :: rest))) = _
          rw [parseVal_ws fuel _ _ wsOnly_space]
          exact ih1 v d _ hszV (notDigitHead_cons _ _ (by decide))
        have hsk2 : skipWs ('\n' :: (indentChars d2 ++ cbrace :: rest)) = cbrace :: rest := by
          rw [skipWs_newline, skipWs_indent, skipWs_cons_not _ _ (by decide)]
        have hskC : ∀ l : List Char, skipWs (':' :: l) = ':' :: l :=
          fun l => skipWs_cons_not ':' l (by decide)
        simp [parseStrBody_escape, hpv, hsk2, hskC, (by decide : ¬ cbrace = ',')]
      | cons f2 fs2 =>
        obtain ⟨k2, v2⟩ := f2
        have hsz2 : fieldsSize ((k2, v2) :: fs2) ≤ fuel := by
          simp [fieldsSize, jsonSize] at hsize ⊢
          omega
        simp only [parseFields]
        have hsk1 : skipWs (W ++ (serFields ((k, v) :: (k2, v2) :: fs2) d ++
            '\n' :: (indentChars d2 ++ cbrace :: rest))) =
            '"' :: (escapeChars k.data ++ '"' :: (':' :: (' ' :: (serVal v d ++
              (',' :: '\n' :: (serFields ((k2, v2) :: fs2) d ++
                '\n' :: (indentChars d2 ++ cbrace :: rest))))))) := by
          rw [skipWs_append_ws _ _ hW]
          show skipWs ((indentChars d ++ serStr k ++ ':' :: ' ' :: serVal v d ++
            ',' :: '\n' :: serFields ((k2, v2) :: fs2) d) ++
            ('\n' :: (indentChars d2 ++ cbrace :: rest))) = _
          rw [List.append_assoc, List.append_assoc, List.append_assoc, skipWs_indent]
          show skipWs ('"' :: (escapeChars k.data ++ ['"'] ++
            (':' :: ' ' :: (serVal v d ++ (',' :: '\n' :: serFields ((k2, v2) :: fs2) d ++
              ('\n' :: (indentChars d2 ++ cbrace :: rest))))))) = _
          rw [skipWs_cons_not _ _ (by decide)]
          simp [List.append_assoc]
        rw [hsk1]
        have hpv : parseVal fuel (' ' :: (serVal v d ++
            (',' :: '\n' :: (serFields ((k2, v2) :: fs2) d ++
              '\n' :: (indentChars d2 ++ cbrace :: rest))))) =
            some (v, ',' :: '\n' :: (serFields ((k2, v2) :: fs2) d ++
              '\n' :: (indentChars d2 ++ cbrace :: rest))) := by
          show parseVal fuel ([' '] ++ (serVal v d ++
            (',' :: '\n' :: (serFields ((k2, v2) :: fs2) d ++
              '\n' :: (indentChars d2 ++ cbrace :: rest))))) = _
          rw [parseVal_ws fuel _ _ wsOnly_space]
          exact ih1 v d _ hszV (notDigitHead_cons _ _ (by decide))
        have hsk2 : skipWs (',' :: '\n' :: (serFields ((k2, v2) :: fs2) d ++
            '\n' :: (indentChars d2 ++ cbrace :: rest))) =
            ',' :: '\n' :: (serFields ((k2, v2) :: fs2) d ++
              '\n' :: (indentChars d2 ++ cbrace :: rest)) :=
          skipWs_cons_not _ _ (by decide)
        have hskC : ∀ l : List Char, skipWs (':' :: l) = ':' :: l :=
          fun l => skipWs_cons_not ':' l (by decide)
        have hrec := ih3 k2 v2 fs2 d d2 ['\n'] rest hsz2 wsOnly_nl hnd
        rw [List.singleton_append] at hrec
        simp [parseStrBody_escape, hpv, hsk2, hskC, hrec]

/-! ## Size bound: the serializer emits at least one character per node -/

theorem sizeOf_json_pos (j : Json) : 1 ≤ sizeOf j := by
  cases j <;> simp

theorem ser_length_all : ∀ (n : Nat),
    (∀ j : Json, sizeOf j ≤ n → ∀ d, jsonSize j ≤ (serVal j d).length) ∧
    (∀ es : List Json, sizeOf es ≤ n → ∀ d, 1 ≤ d → elemsSize es ≤ (serElems es d).length) ∧
    (∀ fs : List (String × Json), sizeOf fs ≤ n → ∀ d, 1 ≤ d →
      fieldsSize fs ≤ (serFields fs d).length) := by
  intro n
  induction n with
  | zero =>
    refine ⟨?_, ?_, ?_⟩
    · intro j h
      exact absurd h (by have := sizeOf_json_pos j; omega)
    · intro es h
      exact absurd h (by cases es <;> simp at h ⊢)
    · intro fs h
      exact absurd h (by cases fs <;> simp at h ⊢)
  | succ n ih =>
    obtain ⟨ih1, ih2, ih3⟩ := ih
    refine ⟨?_, ?_, ?_⟩
    · intro j hsz d
      cases j with
      | null => simp [jsonSize, serVal]
      | bool b => cases b <;> simp [jsonSize, serVal]
      | num i =>
        show jsonSize (Json.num i) ≤ (serInt i).length
        have h1 : 1 ≤ (serNat i.natAbs).length := by
          cases hs : serNat i.natAbs with
          | nil => exact absurd hs (serNat_ne_nil _)
          | cons a t => simp
        rw [serInt]
        by_cases hi : i < 0
        · rw [if_pos hi]
          simp only [jsonSize, List.length_cons]
          omega
        · rw [if_neg hi]
          simp only [jsonSize]
          omega
      | str s =>
        show jsonSize (Json.str s) ≤ (serStr s).length
        simp [jsonSize, serStr]
      | arr es =>
        cases es with
        | nil => simp [jsonSize, elemsSize, serVal]
        | cons e es2 =>
          have hs2 : sizeOf (e :: es2) ≤ n := by
            simp at hsz ⊢
            omega
          have h2 := ih2 (e :: es2) hs2 (d + 1) (by omega)
          show jsonSize (Json.arr (e :: es2)) ≤
            ('[' :: '\n' :: (serElems (e :: es2) (d + 1) ++
              '\n' :: indentChars d ++ [']'])).length
          simp [jsonSize, indentChars] at h2 ⊢
          omega
      | obj fs =>
        cases fs with
        | nil => simp [jsonSize, fieldsSize, serVal]
        | cons f fs2 =>
          have hs2 : sizeOf (f :: fs2) ≤ n := by
            simp at hsz ⊢
            omega
          have h2 := ih3 (f :: fs2) hs2 (d + 1) (by omega)
          obtain ⟨k, v⟩ := f
          show jsonSize (Json.obj ((k, v) :: fs2)) ≤
            (obrace :: '\n' :: (serFields ((k, v) :: fs2) (d + 1) ++
              '\n' :: indentChars d ++ [cbrace])).length
          simp [jsonSize, indentChars] at h2 ⊢
          omega
    · intro es hsz d hd
      cases es with
      | nil => simp [elemsSize, serElems]
      | cons e es2 =>
        cases es2 with
        | nil =>
          have hse : sizeOf e ≤ n := by
            simp at hsz
            omega
          have h1 := ih1 e hse d
          show elemsSize [e] ≤ (indentChars d ++ serVal e d).length
          simp [elemsSize, indentChars]
          omega
        | cons e2 es3 =>
          have hse : sizeOf e ≤ n := by
            simp at hsz
            omega
          have hs2 : sizeOf (e2 :: es3) ≤ n := by
            simp at hsz ⊢
            omega
          have h1 := ih1 e hse d
          have h2 := ih2 (e2 :: es3) hs2 d hd
          show elemsSize (e :: e2 :: es3) ≤
            (indentChars d ++ serVal e d ++ ',' :: '\n' :: serElems (e2 :: es3) d).length
          simp [elemsSize, indentChars] at h2 ⊢
          omega
    · intro fs hsz d hd
      cases fs with
      | nil => simp [fieldsSize, serFields]
      | cons f fs2 =>
        obtain ⟨k, v⟩ := f
        cases fs2 with
        | nil =>
          have hsv : sizeOf v ≤ n := by
            simp at hsz
            omega
          have h1 := ih1 v hsv d
          show fieldsSize [(k, v)] ≤
            (indentChars d ++ serStr k ++ ':' :: ' ' :: serVal v d).length
          simp [fieldsSize, indentChars]
          omega
        | cons f2 fs3 =>
          have hsv : sizeOf v ≤ n := by
            simp at hsz
            omega
          have hs2 : sizeOf (f2 :: fs3) ≤ n := by
            simp at hsz ⊢
            omega
          have h1 := ih1 v hsv d
          have h2 := ih3 (f2 :: fs3) hs2 d hd
          show fieldsSize ((k, v) :: f2 :: fs3) ≤
            (indentChars d ++ serStr k ++ ':' :: ' ' :: serVal v d ++
              ',' :: '\n' :: serFields (f2 :: fs3) d).length
          simp [fieldsSize, indentChars] at h2 ⊢
          omega

/-- Claim C2: the manifest rewrite changes only the name field.  The written
text (stringify of the object with name assigned, two-space indentation,
trailing newline) parses back to exactly that object; the key ordering of
the input is preserved, with a name key appended only when the input had
none; every field other than name is carried over unchanged in both
directions; the name field holds the assigned value, which is the
explicitly supplied package name, or the directory-derived project name
when none was supplied. -/
theorem manifest_rewrite_frame :
    (∀ (fields : List (String × Json)) (nm : String),
      parseJson (writtenManifest fields nm) = some (Json.obj (assignName fields nm))) ∧
    (∀ (fields : List (String × Json)) (nm : String),
      (assignName fields nm).map Prod.fst =
        if fields.any (fun e => e.1 = "name") then fields.map Prod.fst
        else fields.map Prod.fst ++ ["name"]) ∧
    (∀ (fields : List (String × Json)) (nm k : String) (v : Json), ¬ k = "name" →
      ((k, v) ∈ assignName fields nm ↔ (k, v) ∈ fields)) ∧
    (∀ (fields : List (String × Json)) (nm : String),
      ("name", Json.str nm) ∈ assignName fields nm) ∧
    (∀ (pn : Option String) (proj s : String), pn = some s → ¬ s = "" →
      effectiveName pn proj = s) ∧
    (∀ proj : String, effectiveName none proj = proj) := by
  refine ⟨?_, ?_, ?_, ?_, ?_, ?_⟩
  · intro fields nm
    have hsz : jsonSize (Json.obj (assignName fields nm)) ≤
        (writtenManifest fields nm).length + 1 := by
      have h1 := (ser_length_all (sizeOf (Json.obj (assignName fields nm)))).1
        (Json.obj (assignName fields nm)) (le_refl _) 0
      have h2 : (serVal (Json.obj (assignName fields nm)) 0).length ≤
          (writtenManifest fields nm).length := by
        rw [writtenManifest]
        simp
      omega
    have hrt := (parse_serVal ((writtenManifest fields nm).length + 1)).1
      (Json.obj (assignName fields nm)) 0 ['\n'] hsz
      (notDigitHead_cons _ _ (by decide))
    rw [parseJson]
    rw [show writtenManifest fields nm = serVal (Json.obj (assignName fields nm)) 0 ++ ['\n']
      from rfl] at hrt ⊢
    rw [hrt]
    rfl
  · intro fields nm
    by_cases h : fields.any (fun e => e.1 = "name")
    · rw [assignName, if_pos h, if_pos h, List.map_map]
      apply List.map_congr_left
      intro e _
      by_cases he : e.1 = "name" <;> simp [he]
    · rw [assignName, if_neg h, if_neg h]
      simp
  · intro fields nm k v hk
    by_cases h : fields.any (fun e => e.1 = "name")
    · rw [assignName, if_pos h]
      constructor
      · intro hm
        obtain ⟨e, he, hfe⟩ := List.mem_map.mp hm
        by_cases hen : e.1 = "name"
        · rw [if_pos hen] at hfe
          have hek : e.1 = k := congrArg Prod.fst hfe
          rw [hek] at hen
          exact absurd hen hk
        · rw [if_neg hen] at hfe
          rw [← hfe]
          exact he
      · intro hm
        apply List.mem_map.mpr
        refine ⟨(k, v), hm, ?_⟩
        rw [if_neg hk]
    · rw [assignName, if_neg h]
      rw [List.mem_append]
      constructor
      · intro hm
        rcases hm with hm | hm
        · exact hm
        · simp at hm
          exact absurd hm.1 hk
      · intro hm
        exact Or.inl hm
  · intro fields nm
    by_cases h : fields.any (fun e => e.1 = "name")
    · rw [assignName, if_pos h]
      obtain ⟨e, he, hen⟩ := List.any_eq_true.mp h
      simp at hen
      apply List.mem_map.mpr
      refine ⟨e, he, ?_⟩
      rw [if_pos hen, hen]
    · rw [assignName, if_neg h]
      simp
  · intro pn proj s hpn hs
    rw [hpn]
    simp [effectiveName, jsOrStr, strTruthy, hs]
  · intro proj
    rfl

/-- Claim C2 witness: the frame part applied to a concrete manifest field
other than name. -/
theorem manifest_rewrite_frame_witness :
    (("version", Json.str "1") ∈ assignName [("version", Json.str "1")] "demo" ↔
      ("version", Json.str "1") ∈ [("version", Json.str "1")]) :=
  manifest_rewrite_frame.2.2.1 [("version", Json.str "1")] "demo" "version"
    (Json.str "1") (by decide)
